import Mathlib

/- Verification of the core reference-checking logic of the repository:
   title normalization, bibliography block scanning and parsing,
   duplicate detection, citation extraction, and cross-reference analysis
   (`ref_checker_logic.py`, plus the save-order reconstruction in
   `bib_utils.py`).  Text is modelled as `List Char`.  The underlying
   single-block BibTeX decoder (`pybtex.database.parse_string`, an external
   library not part of this repository) is modelled from the spec; the
   scanning, storing and reconciliation logic is translated from the source. -/

namespace RefCheck

abbrev Str := List Char

def isWs (c : Char) : Bool :=
  c = ' ' || c = '\t' || c = '\n' || c = '\r' || c = '\x0b' || c = '\x0c'

def isNl (c : Char) : Bool := c = '\n' || c = '\r'

def ltrim (s : Str) : Str := s.dropWhile isWs

def rtrim (s : Str) : Str := s.rdropWhile isWs

def pstrip (s : Str) : Str := ltrim (rtrim s)

def normNl : Str → Str
  | [] => []
  | '\r' :: '\n' :: r => '\n' :: normNl r
  | '\r' :: r => '\n' :: normNl r
  | c :: r => c :: normNl r

def splitNl : Str → Str → List Str
  | [], acc => [acc.reverse]
  | c :: r, acc =>
    if c = '\n' then acc.reverse :: (if r = [] then [] else splitNl r [])
    else splitNl r (c :: acc)

/-- Python `str.splitlines()` on the line boundaries newline,
carriage return, and carriage return + newline: normalize every
boundary to a newline, then split on newlines. -/
def splitLines (s : Str) : List Str :=
  if s = [] then [] else splitNl (normNl s) []

def linesJoin (ls : List Str) : Str :=
  ls.foldr (fun l acc => l ++ '\n' :: acc) []

def cleanLine (l : Str) : Prop := ∀ c ∈ l, isNl c = false

def braceDelta (l : Str) : Int :=
  (l.count '{' : Int) - (l.count '}' : Int)

/-- Word characters of the regex class `\w` (ASCII model: letters,
digits, underscore). -/
def wordChar (c : Char) : Bool :=
  (decide (65 ≤ c.toNat) && decide (c.toNat ≤ 90)) ||
  (decide (97 ≤ c.toNat) && decide (c.toNat ≤ 122)) ||
  (decide (48 ≤ c.toNat) && decide (c.toNat ≤ 57)) ||
  c = '_'

/-- Python `str.lower` on one character (ASCII model). -/
def lowerChar (c : Char) : Char :=
  if 65 ≤ c.toNat ∧ c.toNat ≤ 90 then Char.ofNat (c.toNat + 32) else c

/-- Python `str.lower` (ASCII model). -/
def plower (s : Str) : Str := s.map lowerChar

/-- Worker replacing each maximal whitespace run by a single space,
the effect of `re.sub` with pattern `\s+` and replacement `" "`.
The flag records whether the previous character was whitespace. -/
def collapseWsAux : Str → Bool → Str
  | [], _ => []
  | c :: r, inRun =>
    if isWs c then
      if inRun then collapseWsAux r true else ' ' :: collapseWsAux r true
    else
      c :: collapseWsAux r false

def collapseWs (s : Str) : Str := collapseWsAux s false

/-- `ReferenceChecker.normalize_title`: drop brace, dollar and backslash
characters, drop remaining non-word non-space characters, lower-case,
collapse whitespace runs to one space, and strip the ends.  Empty input
returns the empty string. -/
def normalizeTitle (t : Str) : Str :=
  if t = [] then []
  else
    let t1 := t.filter fun c => !(c = '{' || c = '}' || c = '$' || c = '\\')
    let t2 := plower (t1.filter fun c => wordChar c || isWs c)
    pstrip (collapseWs t2)

/-- Matching the regular expression `@\w+\x7b([^,]+)` right after an
`@`: a nonempty run of word characters, an open brace, then a nonempty
run of non-comma characters as the captured group. -/
def takeKeyCap (r : Str) : Option Str :=
  let w := r.takeWhile wordChar
  if w = [] then none
  else
    match r.dropWhile wordChar with
    | '{' :: r2 =>
      let cap := r2.takeWhile fun c => !(c = ',')
      if cap = [] then none else some (pstrip cap)
    | _ => none

/-- Leftmost search for `@\w+\x7b([^,]+)` in one line, returning the
captured group stripped — the key extraction of `load_bib_file` and
`parse_bib_string`. -/
def lineKey : Str → Option Str
  | [] => none
  | c :: r =>
    if c = '@' then
      match takeKeyCap r with
      | some k => some k
      | none => lineKey r
    else lineKey r

/-- Python `line.strip().startswith("@")`. -/
def isAtLine (l : Str) : Bool := decide ((pstrip l).head? = some '@')

/-- Python truthiness of the `current_key` variable: not `None` and not
the empty string. -/
def keyTruthy : Option Str → Bool
  | some s => !s.isEmpty
  | none => false

/-- The raw fields of one decoded record, before normalization
(`entry.fields.get` with default empty string). -/
structure RawEntry where
  title : Str
  author : Str
  year : Str
deriving DecidableEq

/-- The comparison fields stored by `_parse_and_store`: key, normalized
title, lower-cased author, year. -/
structure BibEntry where
  key : Str
  title : Str
  author : Str
  year : Str
deriving DecidableEq

def mkEntry (k : Str) (r : RawEntry) : BibEntry :=
  ⟨k, normalizeTitle r.title, plower r.author, r.year⟩

/-- Characters allowed in a record key by the modelled decoder:
no whitespace, comma, or brace. -/
def keyChar (c : Char) : Bool := !isWs c && !(c = ',') && !(c = '{') && !(c = '}')

/-- Characters of a field name: word characters and hyphen. -/
def fieldNameChar (c : Char) : Bool := wordChar c || c = '-'

def skipWs (s : Str) : Str := s.dropWhile isWs

/-- Scan a brace-balanced value after its opening brace, returning the
content and the text after the matching close brace. -/
def takeBalanced : Str → Nat → Option (Str × Str)
  | [], _ => none
  | '}' :: r, 0 => some ([], r)
  | '}' :: r, d + 1 => (takeBalanced r d).map fun p => ('}' :: p.1, p.2)
  | '{' :: r, d => (takeBalanced r (d + 1)).map fun p => ('{' :: p.1, p.2)
  | c :: r, d => (takeBalanced r d).map fun p => (c :: p.1, p.2)

/-- One field value: a braced balanced value, a quoted value, or a bare
token. -/
def parseValue (s : Str) : Option (Str × Str) :=
  match s with
  | '{' :: r => takeBalanced r 0
  | '"' :: r =>
    let v := r.takeWhile fun c => !(c = '"')
    match r.dropWhile fun c => !(c = '"') with
    | '"' :: rest => some (v, rest)
    | _ => none
  | _ =>
    let v := s.takeWhile fun c => !isWs c && !(c = ',') && !(c = '}')
    if v = [] then none
    else some (v, s.dropWhile fun c => !isWs c && !(c = ',') && !(c = '}'))

/-- The field list after `@type\x7bkey,`: `name = value` pairs separated
by commas, ended by the closing brace, which must end the block. -/
def parseFields : Nat → Str → List (Str × Str) → Option (List (Str × Str))
  | 0, _, _ => none
  | n + 1, s, acc =>
    match skipWs s with
    | '}' :: rest => if rest = [] then some acc else none
    | s1 =>
      let name := s1.takeWhile fieldNameChar
      if name = [] then none
      else
        match skipWs (s1.dropWhile fieldNameChar) with
        | '=' :: r2 =>
          match parseValue (skipWs r2) with
          | some (v, r3) =>
            let acc2 := acc ++ [(plower name, v)]
            match skipWs r3 with
            | ',' :: r5 => parseFields n r5 acc2
            | '}' :: r6 => if r6 = [] then some acc2 else none
            | _ => none
          | none => none
        | _ => none

def lookupField (fields : List (Str × Str)) (name : Str) : Str :=
  match fields.find? fun p => decide (p.1 = name) with
  | some p => p.2
  | none => []

/-- Modelled from the spec: the single-block BibTeX decoder used by
`_parse_and_store` is `pybtex.database.parse_string`, an external
library whose code is not part of this repository.  Following spec
sections 4.3 and 6, the decoder accepts one record of the standard form
`@type\x7bkey, field = \x7bvalue\x7d, ...\x7d` — an `@`, a nonempty
type word, an open brace, a nonempty key terminated by a comma, a
comma-separated field list and the matching close brace — and rejects a
block whose syntax is unbalanced or otherwise malformed. -/
def parseEntryCore (s : Str) : Option (Str × RawEntry) :=
  match s with
  | '@' :: r1 =>
    if r1.takeWhile wordChar = [] then none
    else
      match r1.dropWhile wordChar with
      | '{' :: r2 =>
        let k := r2.takeWhile keyChar
        if k = [] then none
        else
          match r2.dropWhile keyChar with
          | ',' :: r3 =>
            match parseFields (r3.length + 1) r3 [] with
            | some fields =>
              some (k, ⟨lookupField fields "title".data,
                lookupField fields "author".data, lookupField fields "year".data⟩)
            | none => none
          | _ => none
      | _ => none
  | _ => none

/-- Modelled from the spec: the block decoder as used on a raw block —
`parse_string` tolerates surrounding whitespace, and a decoded block
yields one record (key and raw fields); a rejected block yields none,
which `_parse_and_store` turns into a logged, swallowed failure. -/
def parseEntryModel (b : Str) : List (Str × RawEntry) :=
  match parseEntryCore (pstrip b) with
  | some (k, r) => [(k, r)]
  | none => []

/-- A key-to-value map with insertion order, modelling a Python dict. -/
abbrev AList (V : Type) := List (Str × V)

def keysA {V : Type} (m : AList V) : List Str := m.map Prod.fst

def alookup {V : Type} : AList V → Str → Option V
  | [], _ => none
  | p :: r, k => if p.1 = k then some p.2 else alookup r k

/-- Python dict assignment `m[k] = v`: update in place if the key
exists, else append. -/
def dinsert {V : Type} (k : Str) (v : V) (m : AList V) : AList V :=
  if k ∈ keysA m then m.map fun p => if p.1 = k then (k, v) else p
  else m ++ [(k, v)]

/-- `ReferenceChecker._parse_and_store`: decode one block, and for every
decoded record store its comparison fields under the decoded key and the
stripped block text under the same key.  A decoder failure stores
nothing (the exception is caught and only logged). -/
def parseAndStore (P : Str → List (Str × RawEntry)) (block : Str)
    (entries : AList BibEntry) (originals : AList Str) :
    AList BibEntry × AList Str :=
  (P block).foldl
    (fun acc e => (dinsert e.1 (mkEntry e.1 e.2) acc.1, dinsert e.1 (pstrip block) acc.2))
    (entries, originals)

/-- Loop state of `load_bib_file` / `parse_bib_string`. -/
structure LState where
  entries : AList BibEntry
  originals : AList Str
  order : List Str
  block : Str
  depth : Int
  key : Option Str
deriving DecidableEq

def initL : LState := ⟨[], [], [], [], 0, none⟩

/-- One line of the `load_bib_file` loop. -/
def loadStep (P : Str → List (Str × RawEntry)) (st : LState) (line : Str) : LState :=
  let st1 :=
    if isAtLine line then
      let st2 :=
        if st.block ≠ [] ∧ st.depth = 0 ∧ keyTruthy st.key = true then
          match st.key with
          | some k =>
            let eo := parseAndStore P st.block st.entries st.originals
            { st with entries := eo.1, originals := eo.2, order := st.order ++ [k] }
          | none => st
        else st
      { st2 with
        block := []
        depth := 0
        key := match lineKey line with | some k => some k | none => st2.key }
    else st
  if st1.block ≠ [] ∨ isAtLine line = true then
    { st1 with
      block := st1.block ++ line ++ ['\n']
      depth := st1.depth + braceDelta line }
  else st1

/-- The flush after the loop of `load_bib_file`. -/
def loadFinish (P : Str → List (Str × RawEntry)) (st : LState) : LState :=
  if pstrip st.block ≠ [] ∧ keyTruthy st.key = true then
    match st.key with
    | some k =>
      let eo := parseAndStore P st.block st.entries st.originals
      { st with entries := eo.1, originals := eo.2, order := st.order ++ [k] }
    | none => st
  else st

/-- The in-memory library: parsed records, verbatim blocks, key order. -/
structure Library where
  entries : AList BibEntry
  originals : AList Str
  order : List Str
deriving DecidableEq

/-- `ReferenceChecker.load_bib_file` on already-read file content:
split into lines, scan blocks with the brace counter, parse and store
each flushed block, and record `entry_order`. -/
def loadBib (P : Str → List (Str × RawEntry)) (content : Str) : Library :=
  let st := loadFinish P ((splitLines content).foldl (loadStep P) initL)
  ⟨st.entries, st.originals, st.order⟩

/-- One line of the `parse_bib_string` loop (accumulation starts once a
key has been seen). -/
def pbsStep (P : Str → List (Str × RawEntry)) (st : LState) (line : Str) : LState :=
  let st1 :=
    if isAtLine line then
      let st2 :=
        if st.block ≠ [] ∧ st.depth = 0 ∧ keyTruthy st.key = true then
          match st.key with
          | some _ =>
            let eo := parseAndStore P st.block st.entries st.originals
            { st with entries := eo.1, originals := eo.2 }
          | none => st
        else st
      { st2 with
        block := []
        depth := 0
        key := match lineKey line with | some k => some k | none => st2.key }
    else st
  if keyTruthy st1.key = true then
    { st1 with
      block := st1.block ++ line ++ ['\n']
      depth := st1.depth + braceDelta line }
  else st1

/-- The flush after the loop of `parse_bib_string`. -/
def pbsFinish (P : Str → List (Str × RawEntry)) (st : LState) : LState :=
  if pstrip st.block ≠ [] ∧ keyTruthy st.key = true then
    match st.key with
    | some _ =>
      let eo := parseAndStore P st.block st.entries st.originals
      { st with entries := eo.1, originals := eo.2 }
    | none => st
  else st

/-- The error kinds of the spec: a zero-record parse failure and the
not-loaded precondition failure (both `ValueError` in the source, kept
distinct as the spec's error taxonomy prescribes). -/
inductive ChkErr where
  | parseErr : ChkErr
  | notLoaded : ChkErr
deriving DecidableEq

deriving instance DecidableEq for Except

/-- `ReferenceChecker.parse_bib_string`: blank input returns two empty
maps; otherwise scan and parse blocks, and fail when no entry at all
was decoded. -/
def parseBibString (P : Str → List (Str × RawEntry)) (s : Str) :
    Except ChkErr (AList BibEntry × AList Str) :=
  if pstrip s = [] then .ok ([], [])
  else
    let st := pbsFinish P ((splitLines s).foldl (pbsStep P) initL)
    if st.entries = [] then .error .parseErr else .ok (st.entries, st.originals)

/-- State of the pure block scanner (the scanning skeleton shared by
`load_bib_file` and `parse_bib_string`, with the parser calls replaced
by recording the flushed `(key, block)` pairs). -/
structure ScanSt where
  out : List (Str × Str)
  block : Str
  depth : Int
  key : Option Str
deriving DecidableEq

def scanStepCore (st : ScanSt) (line : Str) : ScanSt :=
  if isAtLine line then
    let out2 :=
      if st.block ≠ [] ∧ st.depth = 0 ∧ keyTruthy st.key = true then
        match st.key with
        | some k => st.out ++ [(k, st.block)]
        | none => st.out
      else st.out
    { out := out2
      block := []
      depth := 0
      key := match lineKey line with | some k => some k | none => st.key }
  else st

def scanStepL (st : ScanSt) (line : Str) : ScanSt :=
  let st1 := scanStepCore st line
  if st1.block ≠ [] ∨ isAtLine line = true then
    { st1 with
      block := st1.block ++ line ++ ['\n']
      depth := st1.depth + braceDelta line }
  else st1

def scanStepP (st : ScanSt) (line : Str) : ScanSt :=
  let st1 := scanStepCore st line
  if keyTruthy st1.key = true then
    { st1 with
      block := st1.block ++ line ++ ['\n']
      depth := st1.depth + braceDelta line }
  else st1

def scanFinish (st : ScanSt) : List (Str × Str) :=
  if pstrip st.block ≠ [] ∧ keyTruthy st.key = true then
    match st.key with
    | some k => st.out ++ [(k, st.block)]
    | none => st.out
  else st.out

def initScan : ScanSt := ⟨[], [], 0, none⟩

/-- The `(key, block)` pairs flushed to the parser by `load_bib_file`. -/
def scanBlocksL (ls : List Str) : List (Str × Str) :=
  scanFinish (ls.foldl scanStepL initScan)

/-- The `(key, block)` pairs flushed to the parser by `parse_bib_string`. -/
def scanBlocksP (ls : List Str) : List (Str × Str) :=
  scanFinish (ls.foldl scanStepP initScan)

/-- `BibManager.save_bib_file`: concatenate, in `entry_order`, the
verbatim text of every ordered key present in the verbatim map,
each followed by a blank line. -/
def saveConcat (order : List Str) (originals : AList Str) : Str :=
  order.foldl
    (fun acc k =>
      match alookup originals k with
      | some s => acc ++ s ++ '\n' :: '\n' :: []
      | none => acc)
    []

/-- One citation capture after the opening brace: the non-close-brace
run, the close brace, and the remaining text after it. -/
def citeCapture (rest : Str) : Option (Str × Str) :=
  match rest.dropWhile (fun c => !(c = '}')) with
  | '}' :: after => some (rest.takeWhile (fun c => !(c = '}')), after)
  | _ => none

/-- Matching the citation pattern of `extract_citations_from_tex` at the
current position: a backslash, the word `cite`, an optional `p`, a
brace-delimited capture of non-close-brace characters.  Returns the
capture and the text after the match. -/
def tryCite (s : Str) : Option (Str × Str) :=
  match s with
  | '\\' :: 'c' :: 'i' :: 't' :: 'e' :: 'p' :: '{' :: rest => citeCapture rest
  | '\\' :: 'c' :: 'i' :: 't' :: 'e' :: '{' :: rest => citeCapture rest
  | _ => none

/-- Python `re.findall` for the citation pattern, with fuel: scan left
to right, emitting each capture and resuming after the match.  Every
step consumes at least one character, so fuel equal to the input length
is always sufficient (`citeFindAllF_fuel`). -/
def citeFindAllF : Nat → Str → List Str
  | 0, _ => []
  | _ + 1, [] => []
  | n + 1, c :: r =>
    match tryCite (c :: r) with
    | some p => p.1 :: citeFindAllF n p.2
    | none => citeFindAllF n r

def citeFindAll (s : Str) : List Str := citeFindAllF s.length s

/-- Python `str.split` on a separator character. -/
def splitOnAux (sep : Char) : Str → Str → List Str
  | [], acc => [acc.reverse]
  | c :: r, acc =>
    if c = sep then acc.reverse :: splitOnAux sep r []
    else splitOnAux sep r (c :: acc)

def splitOnChar (sep : Char) (s : Str) : List Str := splitOnAux sep s []

/-- Keys of one citation match: split the capture on commas, strip each
piece, and drop the empty pieces. -/
def keysOfMatch (m : Str) : List Str :=
  ((splitOnChar ',' m).map pstrip).filter fun k => !k.isEmpty

/-- All keys of all citation matches, in order (`all_keys`). -/
def allCitedKeys (content : Str) : List Str :=
  (citeFindAll content).foldl (fun acc m => acc ++ keysOfMatch m) []

/-- First-occurrence deduplication: the iteration order of a Python
`Counter` / the membership of a Python `set`. -/
def dedupStr (l : List Str) : List Str :=
  l.foldl (fun acc k => if k ∈ acc then acc else acc ++ [k]) []

/-- The keys tallied more than once, each with its count
(`duplicated_keys`). -/
def duplicatedOf (l : List Str) : List (Str × Nat) :=
  (dedupStr l).foldl
    (fun acc k => if 1 < l.count k then acc ++ [(k, l.count k)] else acc) []

/-- `ReferenceChecker.extract_citations_from_tex` on already-read
document text: the set of distinct cited keys and the
more-than-once-cited keys with counts. -/
def extractCitations (content : Str) : List Str × List (Str × Nat) :=
  (dedupStr (allCitedKeys content), duplicatedOf (allCitedKeys content))

/-- Python string comparison: lexicographic by code point. -/
def strLe : Str → Str → Bool
  | [], _ => true
  | _ :: _, [] => false
  | a :: as, b :: bs =>
    if a.toNat < b.toNat then true
    else if a.toNat = b.toNat then strLe as bs
    else false

def insertS (x : Str) : List Str → List Str
  | [] => [x]
  | y :: r => if strLe x y then x :: y :: r else y :: insertS x r

/-- Python `sorted` (ascending). -/
def sortStr (l : List Str) : List Str := l.foldr insertS []

/-- A reconciliation report: unreferenced library keys, cited keys
missing from the library, and the duplicated-citation tallies. -/
structure Recon where
  unreferenced : List Str
  missing : List Str
  duplicates : List (Str × Nat)
deriving DecidableEq

/-- `ReferenceChecker.analyze_tex_citations` on already-read document
text, over the given record map. -/
def analyzeTex (entries : AList BibEntry) (texContent : Str) : Except ChkErr Recon :=
  if entries = [] then .error .notLoaded
  else
    let cd := extractCitations texContent
    let bibKeys := dedupStr (keysA entries)
    .ok ⟨sortStr (bibKeys.filter fun k => !decide (k ∈ cd.1)),
      sortStr (cd.1.filter fun k => !decide (k ∈ bibKeys)),
      cd.2⟩

/-- `ReferenceChecker.are_titles_similar`, over an abstract similarity
ratio `R` modelling `difflib.SequenceMatcher(None, a, b).ratio()`. -/
def areTitlesSimilar (R : Str → Str → ℚ) (t1 t2 : Str) (threshold : ℚ) : Bool :=
  decide (threshold ≤ R t1 t2)

/-- One reported duplicate pair of `check_duplicates`. -/
structure DupMatch where
  userKey : Str
  existingKey : Str
  title : Str
  reason : Str
deriving DecidableEq

def dupReason : Str := "Title match + partial metadata".data

/-- The inner loop of `check_duplicates` for one candidate: scan the
library in map order and stop at the first entry whose title similarity
meets the threshold and whose year and author similarities both exceed
0.3. -/
def scanForDup (R : Str → Str → ℚ) (θ : ℚ) (ue : BibEntry) :
    AList BibEntry → Option (Str × BibEntry)
  | [] => none
  | p :: rest =>
    if areTitlesSimilar R ue.title p.2.title θ then
      if decide ((3 : ℚ) / 10 < R ue.year p.2.year) &&
          decide ((3 : ℚ) / 10 < R ue.author p.2.author) then
        some p
      else scanForDup R θ ue rest
    else scanForDup R θ ue rest

/-- `ReferenceChecker.check_duplicates` (default threshold 9/10 at the
call sites), over abstract ratio `R` and block decoder `P`. -/
def checkDuplicates (R : Str → Str → ℚ) (P : Str → List (Str × RawEntry))
    (entries : AList BibEntry) (userBib : Str) (θ : ℚ) :
    Except ChkErr (List DupMatch) :=
  if entries = [] then .error .notLoaded
  else
    match parseBibString P userBib with
    | .error _ => .error .parseErr
    | .ok parsed =>
      .ok (parsed.1.foldl
        (fun acc p =>
          match scanForDup R θ p.2 entries with
          | some q => acc ++ [⟨p.1, q.1, p.2.title, dupReason⟩]
          | none => acc)
        [])

/-- The mutable state of a `ReferenceChecker` instance. -/
structure Checker where
  bibEntries : AList BibEntry
  originalEntries : AList Str
  entryOrder : List Str
deriving DecidableEq

/-- `check_duplicates` as a state transformer on the checker instance:
the method reads `self.bib_entries` and assigns no attribute. -/
def checkDuplicatesS (R : Str → Str → ℚ) (P : Str → List (Str × RawEntry))
    (st : Checker) (userBib : Str) (θ : ℚ) :
    Except ChkErr (List DupMatch) × Checker :=
  (checkDuplicates R P st.bibEntries userBib θ, st)

/-- `analyze_tex_citations` as a state transformer on the checker
instance: the method reads `self.bib_entries` and assigns no attribute. -/
def analyzeTexS (st : Checker) (texContent : Str) :
    Except ChkErr Recon × Checker :=
  (analyzeTex st.bibEntries texContent, st)

/-- The acceptance test of the duplicate-match policy, written from the
spec: title similarity meets the threshold and both secondary
similarities strictly exceed 0.3. -/
def matchAccept (R : Str → Str → ℚ) (θ : ℚ) (ue ee : BibEntry) : Bool :=
  areTitlesSimilar R ue.title ee.title θ &&
  (decide ((3 : ℚ) / 10 < R ue.year ee.year) &&
   decide ((3 : ℚ) / 10 < R ue.author ee.author))

/-- A concrete similarity ratio used to instantiate the abstract
`difflib` ratio in witnesses: 1 for equal strings, 0 otherwise. -/
def eqRatio : Str → Str → ℚ := fun a b => if a = b then 1 else 0

/-- Folding the per-block parse-and-store over a list of flushed
`(key, block)` pairs, starting from empty maps. -/
def assembleMaps (P : Str → List (Str × RawEntry)) (bs : List (Str × Str)) :
    AList BibEntry × AList Str :=
  bs.foldl (fun eo kb => parseAndStore P kb.2 eo.1 eo.2) ([], [])

/-- Simulation relation between the `load_bib_file` loop state and the
pure scanner state: same running block, depth and key, and the maps and
the order list are exactly what assembling the flushed pairs yields. -/
def relL (P : Str → List (Str × RawEntry)) (st : LState) (sc : ScanSt) : Prop :=
  st.block = sc.block ∧ st.depth = sc.depth ∧ st.key = sc.key ∧
  st.entries = (assembleMaps P sc.out).1 ∧
  st.originals = (assembleMaps P sc.out).2 ∧
  st.order = sc.out.map Prod.fst

/-- Structure of a block the scanner can flush: the lines it was built
from — an `@` line followed by non-`@` lines, all free of newline
characters — with the flushed key either captured on the `@` line or
inherited (the `@` line has no capture), and truthy. -/
def GoodPair (k b : Str) : Prop :=
  ∃ l₀ ls, b = linesJoin (l₀ :: ls) ∧ isAtLine l₀ = true ∧
    (∀ l ∈ ls, isAtLine l = false) ∧ (∀ l ∈ l₀ :: ls, cleanLine l) ∧
    (lineKey l₀ = some k ∨ lineKey l₀ = none) ∧ keyTruthy (some k) = true

/-- Invariant of the scanner's running block: it is the lines from the
most recent `@` line on, the current key agrees with that line's capture
when there is one, and the depth counter is the block's brace balance. -/
def BlockInv (sc : ScanSt) : Prop :=
  sc.block ≠ [] → ∃ l₀ ls, sc.block = linesJoin (l₀ :: ls) ∧
    isAtLine l₀ = true ∧ (∀ l ∈ ls, isAtLine l = false) ∧
    (∀ l ∈ l₀ :: ls, cleanLine l) ∧
    (∀ k, lineKey l₀ = some k → sc.key = some k) ∧
    sc.depth = braceDelta sc.block

/-- Full scanner invariant: every flushed pair is well-shaped with a
zero brace balance, and the running block satisfies `BlockInv`. -/
def ScanInv (sc : ScanSt) : Prop :=
  (∀ p ∈ sc.out, GoodPair p.1 p.2 ∧ braceDelta p.2 = 0) ∧ BlockInv sc

/-- What holds of every verbatim text the library stores under a key:
stripped, decodes to exactly that key, its first line is an `@` line
capturing the key, its other lines are not `@` lines, and joining its
lines restores the text. -/
def SavedG (k t : Str) : Prop :=
  t ≠ [] ∧ pstrip t = t ∧ keyTruthy (some k) = true ∧
  linesJoin (splitLines t) = t ++ ['\n'] ∧
  (∃ l₀ rest, splitLines t = l₀ :: rest ∧ isAtLine l₀ = true ∧
    lineKey l₀ = some k ∧ ∀ l ∈ rest, isAtLine l = false) ∧
  (∃ r, parseEntryModel t = [(k, r)])

/-- The `(key, text)` pairs `save_bib_file` emits: the ordered keys that
are present in the verbatim map, with their stored texts. -/
def emitPairs (order : List Str) (m : AList Str) : List (Str × Str) :=
  order.filterMap fun k => (alookup m k).map fun v => (k, v)

/-- The emitted file: each text followed by a blank line. -/
def joinSave : List (Str × Str) → Str
  | [] => []
  | p :: r => p.2 ++ '\n' :: '\n' :: joinSave r

/-- The lines of the emitted file, per emission: the text's lines and
the blank separator line. -/
def linesOf : List (Str × Str) → List Str
  | [] => []
  | p :: r => (splitLines p.2 ++ [[]]) ++ linesOf r

/-- The pairs a rescan of the emitted file flushes, given the pending
emission and the ones after it: a pending block is flushed at the next
`@` line only when its brace balance is zero, and the last block is
flushed at end of input unconditionally. -/
def flushChain : (Str × Str) → List (Str × Str) → List (Str × Str)
  | p, [] => [(p.1, p.2 ++ ['\n', '\n'])]
  | p, q :: r =>
    (if braceDelta p.2 = 0 then [(p.1, p.2 ++ ['\n', '\n'])] else []) ++
      flushChain q r

/-- The rescanner's state between two emissions: the previous emission's
text (and blank separator) is the open block, its brace balance the
depth, its key the current key. -/
def gapState (out : List (Str × Str)) (p : Str × Str) : ScanSt :=
  ⟨out, p.2 ++ ['\n', '\n'], braceDelta p.2, some p.1⟩

/-- Simulation relation between the `parse_bib_string` loop state and
the pure scanner state (no order list there). -/
def relP (P : Str → List (Str × RawEntry)) (st : LState) (sc : ScanSt) : Prop :=
  st.block = sc.block ∧ st.depth = sc.depth ∧ st.key = sc.key ∧
  st.entries = (assembleMaps P sc.out).1 ∧
  st.originals = (assembleMaps P sc.out).2

theorem isNl_ws {c : Char} (h : isNl c = true) : isWs c = true := by
  simp only [isNl, Bool.or_eq_true, decide_eq_true_eq] at h
  rcases h with h | h <;> simp [isWs, h]

theorem ltrim_idem (s : Str) : ltrim (ltrim s) = ltrim s :=
  List.dropWhile_idempotent _ _

theorem rtrim_idem (s : Str) : rtrim (rtrim s) = rtrim s :=
  List.rdropWhile_idempotent _ _

theorem dropWhile_append_eq {p : Char → Bool} (a b : Str) :
    (a ++ b).dropWhile p =
      if a.dropWhile p = [] then b.dropWhile p else a.dropWhile p ++ b := by
  induction a with
  | nil => simp
  | cons c r ih =>
    by_cases h : p c
    · simpa [List.dropWhile_cons, h] using ih
    · simp [List.dropWhile_cons, h]

theorem ltrim_append_eq (a b : Str) :
    ltrim (a ++ b) = if ltrim a = [] then ltrim b else ltrim a ++ b :=
  dropWhile_append_eq a b

theorem ltrim_append_ws {a : Str} (b : Str) (ha : ∀ c ∈ a, isWs c = true) :
    ltrim (a ++ b) = ltrim b := by
  rw [ltrim_append_eq]
  have : ltrim a = [] := by
    simp only [ltrim, List.dropWhile_eq_nil_iff]
    exact ha
  simp [this]

theorem rtrim_append_eq (a b : Str) :
    rtrim (a ++ b) = if rtrim b = [] then rtrim a else a ++ rtrim b := by
  simp only [rtrim, List.rdropWhile, List.reverse_append]
  rw [dropWhile_append_eq]
  by_cases h : b.reverse.dropWhile isWs = []
  · simp [h]
  · have : (b.reverse.dropWhile isWs).reverse.reverse ≠ [] := by
      simpa using h
    simp [h, List.reverse_append]

theorem rtrim_append_ws (a : Str) {b : Str} (hb : ∀ c ∈ b, isWs c = true) :
    rtrim (a ++ b) = rtrim a := by
  rw [rtrim_append_eq]
  have : rtrim b = [] := by
    simp only [rtrim, List.rdropWhile_eq_nil_iff]
    exact hb
  simp [this]

theorem ltrim_cons_ws {c : Char} (h : isWs c = true) (s : Str) :
    ltrim (c :: s) = ltrim s := by
  simp [ltrim, List.dropWhile_cons, h]

theorem ltrim_cons_nws {c : Char} (h : isWs c = false) (s : Str) :
    ltrim (c :: s) = c :: s := by
  simp [ltrim, List.dropWhile_cons, h]

theorem ltrim_eq_self_of_head {c : Char} {s : Str} (h : isWs c = false) :
    ltrim (c :: s) = c :: s := ltrim_cons_nws h s

theorem rtrim_eq_self_of_last {s : Str} {c : Char} (h : isWs c = false) (t : Str) :
    s = t ++ [c] → rtrim s = s := by
  rintro rfl
  simp [rtrim, List.rdropWhile_concat, h]

theorem dropWhile_head_false {p : Char → Bool} {s : Str} {c : Char} {r : Str}
    (h : s.dropWhile p = c :: r) : p c = false := by
  induction s with
  | nil => simp at h
  | cons a t ih =>
    by_cases hp : p a = true
    · rw [List.dropWhile_cons_of_pos hp] at h
      exact ih h
    · rw [List.dropWhile_cons_of_neg hp] at h
      cases h
      simpa using hp

theorem ltrim_decomp (s : Str) :
    s = s.takeWhile isWs ++ ltrim s ∧ ∀ c ∈ s.takeWhile isWs, isWs c = true := by
  constructor
  · exact (List.takeWhile_append_dropWhile (p := isWs) (l := s)).symm
  · intro c hc
    exact List.mem_takeWhile_imp hc

theorem rtrim_decomp (s : Str) :
    ∃ w, s = rtrim s ++ w ∧ ∀ c ∈ w, isWs c = true := by
  refine ⟨(s.reverse.takeWhile isWs).reverse, ?_, ?_⟩
  · conv_lhs => rw [← s.reverse_reverse]
    rw [rtrim, List.rdropWhile, ← List.reverse_append,
      List.takeWhile_append_dropWhile (p := isWs) (l := s.reverse)]
  · intro c hc
    rw [List.mem_reverse] at hc
    exact List.mem_takeWhile_imp hc

theorem ltrim_rtrim_comm (s : Str) : ltrim (rtrim s) = rtrim (ltrim s) := by
  obtain ⟨hdec, hws⟩ := ltrim_decomp s
  rcases h : ltrim s with _ | ⟨c, r⟩
  · have hall : ∀ x ∈ s, isWs x = true := by
      intro x hx
      rw [hdec] at hx
      rcases List.mem_append.1 hx with h1 | h1
      · exact hws x h1
      · rw [h] at h1
        simp at h1
    have hrt : rtrim s = [] := by
      rw [rtrim, List.rdropWhile_eq_nil_iff]
      exact hall
    rw [hrt]
    rfl
  · have hc : isWs c = false := dropWhile_head_false h
    have hne : rtrim (c :: r) ≠ [] := by
      intro hcon
      have : ∀ x ∈ c :: r, isWs x = true := by
        simpa [rtrim, List.rdropWhile_eq_nil_iff] using hcon
      simpa [hc] using this c (by simp)
    have step1 : rtrim s = s.takeWhile isWs ++ rtrim (c :: r) := by
      conv_lhs => rw [hdec, h]
      rw [rtrim_append_eq]
      simp [hne]
    rw [step1, ltrim_append_ws _ hws]
    obtain ⟨w, hw, -⟩ := rtrim_decomp (c :: r)
    rcases hrd : rtrim (c :: r) with _ | ⟨d, t⟩
    · exact absurd hrd hne
    · rw [hrd] at hw
      have hd : d = c := by
        have := congrArg (List.head? ·) hw
        simpa using this.symm
      subst hd
      exact ltrim_cons_nws hc t

theorem pstrip_idem (s : Str) : pstrip (pstrip s) = pstrip s := by
  show ltrim (rtrim (ltrim (rtrim s))) = ltrim (rtrim s)
  rw [← ltrim_rtrim_comm (rtrim s), rtrim_idem, ltrim_idem]

theorem pstrip_append_ws (s : Str) {w : Str} (hw : ∀ c ∈ w, isWs c = true) :
    pstrip (s ++ w) = pstrip s := by
  unfold pstrip
  rw [rtrim_append_ws _ hw]

theorem pstrip_all_ws {s : Str} (h : ∀ c ∈ s, isWs c = true) : pstrip s = [] := by
  unfold pstrip
  have : rtrim s = [] := by
    simp only [rtrim, List.rdropWhile_eq_nil_iff]
    exact h
  simp [this, ltrim]

theorem pstrip_no_ws {s : Str} (h : ∀ c ∈ s, isWs c = false) : pstrip s = s := by
  unfold pstrip
  have hr : rtrim s = s := by
    rw [rtrim, List.rdropWhile_eq_self_iff]
    intro hl
    have := h (s.getLast hl) (List.getLast_mem hl)
    simp [this]
  rw [hr]
  cases s with
  | nil => rfl
  | cons c r => exact ltrim_cons_nws (h c (by simp)) r

theorem linesJoin_cons (l : Str) (ls : List Str) :
    linesJoin (l :: ls) = l ++ '\n' :: linesJoin ls := rfl

theorem linesJoin_append (a b : List Str) :
    linesJoin (a ++ b) = linesJoin a ++ linesJoin b := by
  induction a with
  | nil => rfl
  | cons l r ih => simp [linesJoin_cons, ih]

theorem splitLines_nil : splitLines [] = [] := rfl

theorem normNl_crnl (r : Str) : normNl ('\r' :: '\n' :: r) = '\n' :: normNl r := rfl

theorem normNl_cr_nil : normNl ['\r'] = ['\n'] := rfl

theorem normNl_cr_notnl {d : Char} (hd : ¬d = '\n') (t : Str) :
    normNl ('\r' :: d :: t) = '\n' :: normNl (d :: t) := by
  rw [normNl.eq_def]
  split <;> (try simp_all) <;>
    (rename_i hne heq; rw [← heq.1] at hne; exact absurd rfl hne)

theorem normNl_other {c : Char} (hc : ¬c = '\r') (r : Str) :
    normNl (c :: r) = c :: normNl r := by
  rw [normNl.eq_def]
  split <;> (try simp_all) <;>
    (rename_i hne heq; rw [← heq.1] at hne; exact absurd rfl hne)

theorem normNl_ne_nil {s : Str} (h : s ≠ []) : normNl s ≠ [] := by
  cases s with
  | nil => exact absurd rfl h
  | cons c r =>
    by_cases hc : c = '\r'
    · subst hc
      cases r with
      | nil => rw [normNl_cr_nil]; simp
      | cons d t =>
        by_cases hd : d = '\n'
        · subst hd
          rw [normNl_crnl]
          simp
        · rw [normNl_cr_notnl hd]
          simp
    · rw [normNl_other hc]
      simp

theorem normNl_nil_iff {s : Str} : normNl s = [] ↔ s = [] := by
  constructor
  · intro h
    by_contra hne
    exact normNl_ne_nil hne h
  · intro h
    subst h
    rfl

theorem normNl_no_cr_id {s : Str} (h : ∀ c ∈ s, ¬c = '\r') : normNl s = s := by
  induction s with
  | nil => rfl
  | cons c r ih =>
    rw [normNl_other (h c (by simp)), ih fun x hx => h x (by simp [hx])]

theorem normNl_no_cr_out (s : Str) : ∀ c ∈ normNl s, ¬c = '\r' := by
  suffices hgen : ∀ n s, List.length s ≤ n → ∀ c ∈ normNl s, ¬c = '\r' from
    hgen s.length s le_rfl
  intro n
  induction n with
  | zero =>
    intro s hlen c hc
    cases s with
    | nil => cases hc
    | cons x r => simp at hlen
  | succ n ih =>
    intro s hlen c hc
    cases s with
    | nil => cases hc
    | cons x r =>
      by_cases hx : x = '\r'
      · subst hx
        cases r with
        | nil =>
          rw [normNl_cr_nil] at hc
          simp at hc
          subst hc
          decide
        | cons d t =>
          by_cases hd : d = '\n'
          · subst hd
            rw [normNl_crnl] at hc
            rcases List.mem_cons.1 hc with h1 | h1
            · subst h1
              decide
            · exact ih t (by simp only [List.length_cons] at hlen ⊢; omega) c h1
          · rw [normNl_cr_notnl hd] at hc
            rcases List.mem_cons.1 hc with h1 | h1
            · subst h1
              decide
            · exact ih (d :: t) (by simp only [List.length_cons] at hlen ⊢; omega) c h1
      · rw [normNl_other hx] at hc
        rcases List.mem_cons.1 hc with h1 | h1
        · subst h1
          exact hx
        · exact ih r (by simp only [List.length_cons] at hlen ⊢; omega) c h1

theorem normNl_append {a : Str} (h : ∀ c ∈ a, ¬c = '\r') (b : Str) :
    normNl (a ++ b) = a ++ normNl b := by
  induction a with
  | nil => rfl
  | cons c r ih =>
    rw [List.cons_append, normNl_other (h c (by simp)),
      ih fun x hx => h x (by simp [hx])]
    rfl

theorem splitNl_nl (r acc : Str) :
    splitNl ('\n' :: r) acc =
      acc.reverse :: (if r = [] then [] else splitNl r []) := by
  rw [splitNl, if_pos rfl]

theorem splitNl_other {c : Char} (hc : ¬c = '\n') (r acc : Str) :
    splitNl (c :: r) acc = splitNl r (c :: acc) := by
  rw [splitNl, if_neg hc]

theorem splitNl_no_nl {s : Str} (h : ∀ c ∈ s, ¬c = '\n') (acc : Str) :
    splitNl s acc = [acc.reverse ++ s] := by
  induction s generalizing acc with
  | nil => simp [splitNl]
  | cons c r ih =>
    rw [splitNl_other (h c (by simp)), ih fun x hx => h x (by simp [hx])]
    simp

/-- `isNl` unpacked. -/
theorem isNl_false_iff {c : Char} : isNl c = false ↔ ¬c = '\n' ∧ ¬c = '\r' := by
  simp [isNl]

theorem cleanLine_no_cr {l : Str} (h : cleanLine l) : ∀ c ∈ l, ¬c = '\r' :=
  fun c hc => (isNl_false_iff.1 (h c hc)).2

theorem cleanLine_no_nl {l : Str} (h : cleanLine l) : ∀ c ∈ l, ¬c = '\n' :=
  fun c hc => (isNl_false_iff.1 (h c hc)).1

/-- A clean nonempty string is a single line. -/
theorem splitLines_single {s : Str} (hne : s ≠ []) (h : cleanLine s) :
    splitLines s = [s] := by
  rw [splitLines, if_neg hne, normNl_no_cr_id (cleanLine_no_cr h),
    splitNl_no_nl (cleanLine_no_nl h)]
  simp

theorem splitLines_cons_newline (r : Str) :
    splitLines ('\n' :: r) = [] :: splitLines r := by
  rw [splitLines, if_neg (by simp), normNl_other (by decide), splitNl_nl, splitLines]
  by_cases hr : r = []
  · rw [if_pos hr, if_pos (by rw [hr]; rfl)]
    rfl
  · rw [if_neg hr, if_neg (normNl_ne_nil hr)]
    rfl

theorem splitNl_append_newline {y : Str} : ∀ (a acc : Str), a ≠ [] →
    (∀ hne : a ≠ [], ¬a.getLast hne = '\n') →
    splitNl (a ++ '\n' :: y) acc =
      splitNl a acc ++ (if y = [] then [] else splitNl y []) := by
  intro a
  induction a with
  | nil => intro acc h _; exact absurd rfl h
  | cons c r ih =>
    intro acc _ hlast
    by_cases hc : c = '\n'
    · subst hc
      by_cases hr : r = []
      · subst hr
        exact absurd rfl (hlast (by simp))
      · rw [List.cons_append, splitNl_nl, splitNl_nl, if_neg hr,
          if_neg (by simp [hr])]
        rw [List.cons_append]
        congr 1
        exact ih [] hr fun hne => by
          have h3 := hlast (by simp)
          rwa [List.getLast_cons hne] at h3
    · rw [List.cons_append, splitNl_other hc, splitNl_other hc]
      by_cases hr : r = []
      · subst hr
        simp only [List.nil_append]
        rw [splitNl_nl, splitNl]
        simp
      · exact ih (c :: acc) hr fun hne => by
          have h3 := hlast (by simp)
          rwa [List.getLast_cons hne] at h3

/-- Splitting distributes over a newline that follows a carriage-return
free string not ending in a line break. -/
theorem splitLines_append_newline {a : Str} (b : Str) (hne : a ≠ [])
    (hcr : ∀ c ∈ a, ¬c = '\r')
    (hlast : isNl (a.getLast hne) = false) :
    splitLines (a ++ '\n' :: b) = splitLines a ++ splitLines b := by
  rw [splitLines, if_neg (by simp [hne]),
    normNl_append hcr, normNl_other (by decide)]
  rw [splitNl_append_newline a [] hne
    (fun hne2 => (isNl_false_iff.1 hlast).1)]
  rw [splitLines, if_neg hne, normNl_no_cr_id hcr, splitLines]
  by_cases hb : b = []
  · rw [if_pos hb, if_pos (by rw [hb]; rfl)]
  · rw [if_neg hb, if_neg (normNl_ne_nil hb)]

theorem cleanLine_last {l : Str} (h : cleanLine l) (hne : l ≠ []) :
    isNl (l.getLast hne) = false :=
  h _ (List.getLast_mem hne)

theorem splitNl_lines_clean : ∀ (s acc : Str), (∀ c ∈ s, ¬c = '\r') →
    (∀ c ∈ acc, isNl c = false) → ∀ l ∈ splitNl s acc, cleanLine l := by
  intro s
  induction s with
  | nil =>
    intro acc _ hacc l hl
    simp only [splitNl, List.mem_singleton] at hl
    subst hl
    intro c hc
    exact hacc c (by simpa using hc)
  | cons c r ih =>
    intro acc hs hacc l hl
    by_cases hc : c = '\n'
    · subst hc
      rw [splitNl_nl] at hl
      rcases List.mem_cons.1 hl with h1 | h1
      · subst h1
        intro x hx
        exact hacc x (by simpa using hx)
      · by_cases hr : r = []
        · rw [if_pos hr] at h1
          cases h1
        · rw [if_neg hr] at h1
          exact ih [] (fun x hx => hs x (by simp [hx])) (by simp) l h1
    · rw [splitNl_other hc] at hl
      refine ih (c :: acc) (fun x hx => hs x (by simp [hx])) ?_ l hl
      intro x hx
      rcases List.mem_cons.1 hx with h1 | h1
      · subst h1
        exact isNl_false_iff.2 ⟨hc, hs x (by simp)⟩
      · exact hacc x h1

theorem splitLines_clean (s : Str) : ∀ l ∈ splitLines s, cleanLine l := by
  intro l hl
  rw [splitLines] at hl
  by_cases hs : s = []
  · rw [if_pos hs] at hl
    cases hl
  · rw [if_neg hs] at hl
    exact splitNl_lines_clean (normNl s) [] (normNl_no_cr_out s) (by simp) l hl

theorem splitLines_linesJoin {L : List Str} (h : ∀ l ∈ L, cleanLine l) :
    splitLines (linesJoin L) = L := by
  induction L with
  | nil => rfl
  | cons l rest ih =>
    rw [linesJoin_cons]
    by_cases hl : l = []
    · subst hl
      rw [List.nil_append, splitLines_cons_newline, ih (fun x hx => h x (by simp [hx]))]
    · have hcl : cleanLine l := h l (by simp)
      rw [splitLines_append_newline (linesJoin rest) hl (cleanLine_no_cr hcl) (cleanLine_last hcl hl),
        splitLines_single hl hcl, ih (fun x hx => h x (by simp [hx]))]
      rfl

theorem splitNl_join : ∀ (s acc : Str),
    (∀ h : s ≠ [], s.getLast h ≠ '\n') →
    linesJoin (splitNl s acc) = acc.reverse ++ s ++ ['\n'] := by
  intro s
  induction s with
  | nil =>
    intro acc _
    simp [splitNl, linesJoin]
  | cons c r ih =>
    intro acc hlast
    by_cases hc : c = '\n'
    · subst hc
      by_cases hr : r = []
      · subst hr
        exact absurd rfl (hlast (by simp))
      · rw [splitNl_nl, if_neg hr, linesJoin_cons]
        rw [ih [] fun h => by
          have h3 := hlast (by simp)
          rwa [List.getLast_cons h] at h3]
        simp
    · rw [splitNl_other hc]
      rw [ih (c :: acc) fun h => by
        have h3 := hlast (by simp)
        rwa [List.getLast_cons h] at h3]
      simp

/-- Joining the split of a text with no carriage return and no trailing
newline appends exactly one final newline. -/
theorem linesJoin_splitLines {s : Str} (hcr : ∀ c ∈ s, c ≠ '\r')
    (hlast : ∀ h : s ≠ [], s.getLast h ≠ '\n') :
    linesJoin (splitLines s) = s ++ ['\n'] ∨ s = [] := by
  by_cases hs : s = []
  · exact Or.inr hs
  · left
    rw [splitLines, if_neg hs, normNl_no_cr_id hcr]
    simpa using splitNl_join s [] hlast

theorem mem_ltrim {x : Char} {l : Str} (h : x ∈ ltrim l) : x ∈ l := by
  obtain ⟨hdec, -⟩ := ltrim_decomp l
  rw [hdec]
  exact List.mem_append.2 (Or.inr h)

theorem mem_rtrim {x : Char} {l : Str} (h : x ∈ rtrim l) : x ∈ l := by
  obtain ⟨w, hdec, -⟩ := rtrim_decomp l
  rw [hdec]
  exact List.mem_append.2 (Or.inl h)

theorem cleanLine_ltrim {l : Str} (h : cleanLine l) : cleanLine (ltrim l) :=
  fun c hc => h c (mem_ltrim hc)

theorem cleanLine_rtrim {l : Str} (h : cleanLine l) : cleanLine (rtrim l) :=
  fun c hc => h c (mem_rtrim hc)

theorem cleanLine_pstrip {l : Str} (h : cleanLine l) : cleanLine (pstrip l) :=
  fun c hc => h c (mem_rtrim (mem_ltrim hc))

theorem ltrim_ne_nil {l : Str} {x : Char} (hx : x ∈ l) (hnw : isWs x = false) :
    ltrim l ≠ [] := by
  intro hcon
  rw [ltrim, List.dropWhile_eq_nil_iff] at hcon
  rw [hcon x hx] at hnw
  cases hnw

theorem rtrim_ne_nil {l : Str} {x : Char} (hx : x ∈ l) (hnw : isWs x = false) :
    rtrim l ≠ [] := by
  intro hcon
  rw [rtrim, List.rdropWhile_eq_nil_iff] at hcon
  rw [hcon x hx] at hnw
  cases hnw

theorem pstrip_ne_nil {l : Str} {x : Char} (hx : x ∈ l) (hnw : isWs x = false) :
    pstrip l ≠ [] := by
  obtain ⟨w, hdec, hws⟩ := rtrim_decomp l
  have hx2 : x ∈ rtrim l := by
    rw [hdec] at hx
    rcases List.mem_append.1 hx with h | h
    · exact h
    · rw [hws x h] at hnw
      cases hnw
  exact ltrim_ne_nil hx2 hnw

theorem splitLines_head_eq (s : Str) (hs : s ≠ []) (hcr : ∀ c ∈ s, ¬c = '\r') :
    ∃ rest, splitLines s = s.takeWhile (fun c => !(c = '\n')) :: rest := by
  rw [splitLines, if_neg hs, normNl_no_cr_id hcr]
  suffices hgen : ∀ (t acc : Str), ∃ rest,
      splitNl t acc = (acc.reverse ++ t.takeWhile (fun c => !(c = '\n'))) :: rest by
    simpa using hgen s []
  intro t
  induction t with
  | nil => exact fun acc => ⟨[], by simp [splitNl]⟩
  | cons c r ih =>
    intro acc
    by_cases hc : c = '\n'
    · subst hc
      refine ⟨if r = [] then [] else splitNl r [], ?_⟩
      rw [splitNl_nl]
      simp [List.takeWhile_cons]
    · obtain ⟨rest, hrest⟩ := ih (c :: acc)
      refine ⟨rest, ?_⟩
      rw [splitNl_other hc, hrest]
      simp [List.takeWhile_cons, hc]

theorem rtrim_linesJoin_lines : ∀ ls : List Str, (∀ l ∈ ls, cleanLine l) →
    ∀ x ∈ splitLines (rtrim (linesJoin ls)), ∃ lo ∈ ls, x = lo ∨ x = rtrim lo := by
  intro ls
  induction ls with
  | nil =>
    intro _ x hx
    simp [linesJoin, rtrim, splitLines] at hx
  | cons l₁ rest ih =>
    intro hclean x hx
    rw [linesJoin_cons] at hx
    rw [rtrim_append_eq] at hx
    by_cases hA : rtrim ('\n' :: linesJoin rest) = []
    · rw [if_pos hA] at hx
      by_cases hl1 : rtrim l₁ = []
      · simp [hl1, splitLines] at hx
      · rw [splitLines_single hl1 (cleanLine_rtrim (hclean l₁ (by simp)))] at hx
        simp at hx
        exact ⟨l₁, by simp, Or.inr hx⟩
    · rw [if_neg hA] at hx
      have hz : rtrim (linesJoin rest) ≠ [] := by
        intro hcon
        have : rtrim ('\n' :: linesJoin rest) = [] := by
          rw [show ('\n' :: linesJoin rest : Str) = ['\n'] ++ linesJoin rest from rfl,
            rtrim_append_eq, if_pos hcon]
          rfl
        exact hA this
      have hsplit : rtrim ('\n' :: linesJoin rest) = '\n' :: rtrim (linesJoin rest) := by
        rw [show ('\n' :: linesJoin rest : Str) = ['\n'] ++ linesJoin rest from rfl,
          rtrim_append_eq, if_neg hz]
        rfl
      rw [hsplit] at hx
      have hrest : ∀ y ∈ splitLines (rtrim (linesJoin rest)),
          ∃ lo ∈ rest, y = lo ∨ y = rtrim lo :=
        ih (fun l hl => hclean l (by simp [hl]))
      by_cases hl1 : l₁ = []
      · subst hl1
        rw [List.nil_append, splitLines_cons_newline] at hx
        rcases List.mem_cons.1 hx with h | h
        · exact ⟨[], by simp, Or.inl h⟩
        · obtain ⟨lo, hlo, hor⟩ := hrest x h
          exact ⟨lo, by simp [hlo], hor⟩
      · have hcl1 : cleanLine l₁ := hclean l₁ (by simp)
        rw [splitLines_append_newline _ hl1 (cleanLine_no_cr hcl1) (cleanLine_last hcl1 hl1),
          splitLines_single hl1 hcl1] at hx
        rcases List.mem_cons.1 (by simpa using hx) with h | h
        · exact ⟨l₁, by simp, Or.inl h⟩
        · obtain ⟨lo, hlo, hor⟩ := hrest x h
          exact ⟨lo, by simp [hlo], hor⟩

theorem pstrip_block_tail_lines {l₀ : Str} {ls : List Str}
    (hclean : ∀ l ∈ l₀ :: ls, cleanLine l)
    {x0 : Char} (hx0 : x0 ∈ l₀) (hnw : isWs x0 = false) :
    ∀ x ∈ (splitLines (pstrip (linesJoin (l₀ :: ls)))).tail,
      ∃ lo ∈ ls, x = lo ∨ x = rtrim lo := by
  intro x hx
  rw [linesJoin_cons] at hx
  rw [show pstrip (l₀ ++ '\n' :: linesJoin ls) =
      ltrim (rtrim (l₀ ++ '\n' :: linesJoin ls)) from rfl] at hx
  rw [rtrim_append_eq] at hx
  by_cases hA : rtrim ('\n' :: linesJoin ls) = []
  · rw [if_pos hA] at hx
    have hne : ltrim (rtrim l₀) ≠ [] := pstrip_ne_nil hx0 hnw
    have hcl : cleanLine (ltrim (rtrim l₀)) :=
      cleanLine_ltrim (cleanLine_rtrim (hclean l₀ (by simp)))
    rw [splitLines_single hne hcl] at hx
    simp at hx
  · rw [if_neg hA] at hx
    have hz : rtrim (linesJoin ls) ≠ [] := by
      intro hcon
      have : rtrim ('\n' :: linesJoin ls) = [] := by
        rw [show ('\n' :: linesJoin ls : Str) = ['\n'] ++ linesJoin ls from rfl,
          rtrim_append_eq, if_pos hcon]
        rfl
      exact hA this
    have hsplit : rtrim ('\n' :: linesJoin ls) = '\n' :: rtrim (linesJoin ls) := by
      rw [show ('\n' :: linesJoin ls : Str) = ['\n'] ++ linesJoin ls from rfl,
        rtrim_append_eq, if_neg hz]
      rfl
    rw [hsplit] at hx
    have hltr : ltrim l₀ ≠ [] := ltrim_ne_nil hx0 hnw
    rw [ltrim_append_eq, if_neg hltr] at hx
    have hcl : cleanLine (ltrim l₀) := cleanLine_ltrim (hclean l₀ (by simp))
    rw [splitLines_append_newline _ hltr (cleanLine_no_cr hcl) (cleanLine_last hcl hltr),
      splitLines_single hltr hcl] at hx
    simp only [List.cons_append, List.nil_append, List.tail_cons] at hx
    exact rtrim_linesJoin_lines ls (fun l hl => hclean l (by simp [hl])) x hx

theorem braceDelta_append (a b : Str) :
    braceDelta (a ++ b) = braceDelta a + braceDelta b := by
  simp [braceDelta, List.count_append]
  ring

theorem count_eq_zero_of_ws {c : Char} (hc : isWs c = false) {w : Str}
    (hw : ∀ x ∈ w, isWs x = true) : w.count c = 0 := by
  rw [List.count_eq_zero]
  intro hmem
  rw [hw c hmem] at hc
  cases hc

theorem braceDelta_pstrip (s : Str) : braceDelta (pstrip s) = braceDelta s := by
  obtain ⟨w, hdec, hws⟩ := rtrim_decomp s
  obtain ⟨hdec2, hws2⟩ := ltrim_decomp (rtrim s)
  have ho : isWs '{' = false := by decide
  have hc : isWs '}' = false := by decide
  have h1 : braceDelta s = braceDelta (rtrim s) := by
    conv_lhs => rw [hdec]
    rw [braceDelta_append]
    simp [braceDelta, count_eq_zero_of_ws ho hws, count_eq_zero_of_ws hc hws]
  have h2 : braceDelta (rtrim s) = braceDelta (pstrip s) := by
    conv_lhs => rw [hdec2]
    rw [braceDelta_append]
    have e1 := count_eq_zero_of_ws ho hws2
    have e2 := count_eq_zero_of_ws hc hws2
    show braceDelta _ + braceDelta (ltrim (rtrim s)) = braceDelta (ltrim (rtrim s))
    simp [braceDelta, e1, e2]
  rw [h1, h2]

theorem braceDelta_linesJoin (L : List Str) :
    braceDelta (linesJoin L) = (L.map braceDelta).sum := by
  induction L with
  | nil => rfl
  | cons l rest ih =>
    rw [linesJoin_cons, show (l ++ '\n' :: linesJoin rest : Str) =
      l ++ ['\n'] ++ linesJoin rest by simp, braceDelta_append, braceDelta_append, ih]
    simp [braceDelta]

theorem char_toNat_ofNat {n : Nat} (h : n.isValidChar) : (Char.ofNat n).toNat = n := by
  simp only [Char.ofNat, dif_pos h]
  rfl

theorem ws_toNat {c : Char} (h : isWs c = true) : c.toNat ≤ 32 := by
  simp only [isWs, Bool.or_eq_true, decide_eq_true_eq] at h
  rcases h with ((((h | h) | h) | h) | h) | h <;> subst h <;> decide

theorem isWs_false_of_ge {c : Char} (h : 48 ≤ c.toNat) : isWs c = false := by
  cases hb : isWs c with
  | false => rfl
  | true => exact absurd (ws_toNat hb) (by omega)

theorem lowerChar_toNat_of_upper {c : Char} (h : 65 ≤ c.toNat ∧ c.toNat ≤ 90) :
    (lowerChar c).toNat = c.toNat + 32 := by
  rw [lowerChar, if_pos h]
  exact char_toNat_ofNat (Or.inl (by omega))

theorem lowerChar_of_not_upper {c : Char} (h : ¬(65 ≤ c.toNat ∧ c.toNat ≤ 90)) :
    lowerChar c = c := by
  rw [lowerChar, if_neg h]

theorem lowerChar_idem (c : Char) : lowerChar (lowerChar c) = lowerChar c := by
  by_cases h : 65 ≤ c.toNat ∧ c.toNat ≤ 90
  · have ht := lowerChar_toNat_of_upper h
    exact lowerChar_of_not_upper (by omega)
  · rw [lowerChar_of_not_upper h, lowerChar_of_not_upper h]

theorem wordChar_lowerChar {c : Char} (h : wordChar c = true) :
    wordChar (lowerChar c) = true := by
  by_cases hr : 65 ≤ c.toNat ∧ c.toNat ≤ 90
  · have ht := lowerChar_toNat_of_upper hr
    simp only [wordChar, Bool.or_eq_true, Bool.and_eq_true, decide_eq_true_eq]
    exact Or.inl (Or.inl (Or.inr ⟨by omega, by omega⟩))
  · rw [lowerChar_of_not_upper hr]
    exact h

theorem lowerChar_ws {c : Char} (h : isWs c = true) : lowerChar c = c :=
  lowerChar_of_not_upper (by have := ws_toNat h; omega)

theorem isWs_lowerChar (c : Char) : isWs (lowerChar c) = isWs c := by
  by_cases hr : 65 ≤ c.toNat ∧ c.toNat ≤ 90
  · have ht := lowerChar_toNat_of_upper hr
    rw [isWs_false_of_ge (by omega), isWs_false_of_ge (by omega)]
  · rw [lowerChar_of_not_upper hr]

theorem map_eq_self_of_mem {f : Char → Char} {l : Str} (h : ∀ x ∈ l, f x = x) :
    l.map f = l := by
  induction l with
  | nil => rfl
  | cons c r ih =>
    rw [List.map_cons, h c (by simp), ih fun x hx => h x (by simp [hx])]

theorem collapseWsAux_mem : ∀ (s : Str) (b : Bool), ∀ x ∈ collapseWsAux s b,
    x = ' ' ∨ x ∈ s := by
  intro s
  induction s with
  | nil => intro b x hx; simp [collapseWsAux] at hx
  | cons c r ih =>
    intro b x hx
    rw [collapseWsAux] at hx
    by_cases hc : isWs c = true
    · rw [if_pos hc] at hx
      by_cases hb : b
      · rw [if_pos hb] at hx
        rcases ih true x hx with h | h
        · exact Or.inl h
        · exact Or.inr (by simp [h])
      · rw [if_neg hb] at hx
        rcases List.mem_cons.1 hx with h | h
        · exact Or.inl h
        · rcases ih true x h with h2 | h2
          · exact Or.inl h2
          · exact Or.inr (by simp [h2])
    · rw [if_neg hc] at hx
      rcases List.mem_cons.1 hx with h | h
      · exact Or.inr (by simp [h])
      · rcases ih false x h with h2 | h2
        · exact Or.inl h2
        · exact Or.inr (by simp [h2])

theorem collapseWsAux_ws_space : ∀ (s : Str) (b : Bool),
    ∀ x ∈ collapseWsAux s b, isWs x = true → x = ' ' := by
  intro s
  induction s with
  | nil => intro b x hx; simp [collapseWsAux] at hx
  | cons c r ih =>
    intro b x hx hw
    rw [collapseWsAux] at hx
    by_cases hc : isWs c = true
    · rw [if_pos hc] at hx
      by_cases hb : b
      · rw [if_pos hb] at hx
        exact ih true x hx hw
      · rw [if_neg hb] at hx
        rcases List.mem_cons.1 hx with h | h
        · exact h
        · exact ih true x h hw
    · rw [if_neg hc] at hx
      rcases List.mem_cons.1 hx with h | h
      · subst h
        rw [hw] at hc
        exact absurd rfl hc
      · exact ih false x h hw

theorem collapseWsAux_true_head (s : Str) :
    collapseWsAux s true = [] ∨
      ∃ d t, collapseWsAux s true = d :: t ∧ isWs d = false := by
  induction s with
  | nil => exact Or.inl rfl
  | cons c r ih =>
    rw [collapseWsAux]
    by_cases hc : isWs c = true
    · rw [if_pos hc, if_pos rfl]
      exact ih
    · rw [if_neg hc]
      exact Or.inr ⟨c, _, rfl, by simpa using hc⟩

theorem collapseWsAux_chain : ∀ (s : Str) (b : Bool),
    List.Chain' (fun a d => isWs a = true → isWs d = false) (collapseWsAux s b) := by
  intro s
  induction s with
  | nil => intro b; simp [collapseWsAux]
  | cons c r ih =>
    intro b
    rw [collapseWsAux]
    by_cases hc : isWs c = true
    · rw [if_pos hc]
      by_cases hb : b
      · rw [if_pos hb]
        exact ih true
      · rw [if_neg hb]
        refine List.chain'_cons'.2 ⟨?_, ih true⟩
        intro y hy
        rcases collapseWsAux_true_head r with h | ⟨d, t, hdt, hd⟩
        · rw [h] at hy
          cases hy
        · rw [hdt] at hy
          simp at hy
          subst hy
          intro _
          exact hd
    · rw [if_neg hc]
      refine List.chain'_cons'.2 ⟨?_, ih false⟩
      intro y hy hcon
      rw [hcon] at hc
      exact absurd rfl hc

theorem collapseWs_fixed_aux :
    ∀ s : Str, List.Chain' (fun a d => isWs a = true → isWs d = false) s →
      (∀ x ∈ s, isWs x = true → x = ' ') →
      collapseWsAux s false = s ∧
        (∀ c r, s = c :: r → isWs c = false → collapseWsAux s true = s) := by
  intro s
  induction s with
  | nil => exact fun _ _ => ⟨rfl, fun c r h => by cases h⟩
  | cons c r ih =>
    intro hch hsp
    have hch' : List.Chain' (fun a d => isWs a = true → isWs d = false) r :=
      hch.tail
    have hsp' : ∀ x ∈ r, isWs x = true → x = ' ' :=
      fun x hx => hsp x (by simp [hx])
    obtain ⟨ih1, ih2⟩ := ih hch' hsp'
    constructor
    · rw [collapseWsAux]
      by_cases hc : isWs c = true
      · rw [if_pos hc, if_neg (by simp)]
        have hcsp : c = ' ' := hsp c (by simp) hc
        cases r with
        | nil => rw [collapseWsAux, hcsp]
        | cons d t =>
          have hd : isWs d = false := (List.chain'_cons.1 hch).1 hc
          rw [ih2 d t rfl hd, hcsp]
      · rw [if_neg hc, ih1]
    · intro c0 r0 heq hcw
      have hc0 : c0 = c := by
        cases heq
        rfl
      subst hc0
      have hr0 : r0 = r := by
        cases heq
        rfl
      subst hr0
      rw [collapseWsAux, if_neg (by simp [hcw]), ih1]

theorem chain_right_of_append {P : Char → Char → Prop} {a b : Str}
    (h : List.Chain' P (a ++ b)) : List.Chain' P b :=
  ((List.chain'_append.1 h).2).1

theorem chain_left_of_append {P : Char → Char → Prop} {a b : Str}
    (h : List.Chain' P (a ++ b)) : List.Chain' P a :=
  (List.chain'_append.1 h).1

theorem pstrip_chain {P : Char → Char → Prop} {s : Str}
    (h : List.Chain' P s) : List.Chain' P (pstrip s) := by
  obtain ⟨w, hdec, -⟩ := rtrim_decomp s
  have h1 : List.Chain' P (rtrim s) := chain_left_of_append (hdec ▸ h)
  obtain ⟨hdec2, -⟩ := ltrim_decomp (rtrim s)
  exact chain_right_of_append (hdec2 ▸ h1)

theorem mem_pstrip {x : Char} {s : Str} (h : x ∈ pstrip s) : x ∈ s :=
  mem_rtrim (mem_ltrim h)

/-- Character-level facts about the output of the normalizer. -/
theorem normalizeTitle_chars {t : Str} :
    ∀ x ∈ normalizeTitle t,
      x = ' ' ∨ (wordChar x = true ∧ lowerChar x = x ∧ isWs x = false) := by
  intro x hx
  rw [normalizeTitle] at hx
  by_cases ht : t = []
  · rw [if_pos ht] at hx
    cases hx
  · rw [if_neg ht] at hx
    simp only at hx
    by_cases hw : isWs x = true
    · exact Or.inl (collapseWsAux_ws_space _ false x (mem_pstrip hx) hw)
    · right
      have hmem := collapseWsAux_mem _ false x (mem_pstrip hx)
      rcases hmem with h | h
      · exfalso
        subst h
        exact hw (by decide)
      · simp only [plower, List.mem_map] at h
        obtain ⟨y, hy, hxy⟩ := h
        have hy2 := List.of_mem_filter hy
        simp only [Bool.or_eq_true] at hy2
        rcases hy2 with hy2 | hy2
        · subst hxy
          exact ⟨wordChar_lowerChar hy2, lowerChar_idem y, by simpa using hw⟩
        · exfalso
          subst hxy
          rw [lowerChar_ws hy2] at hw
          exact hw hy2

/-- The normalizer is idempotent. -/
theorem normalizeTitle_idem (t : Str) :
    normalizeTitle (normalizeTitle t) = normalizeTitle t := by
  by_cases hr : normalizeTitle t = []
  · rw [hr]
    rfl
  · have hchars := normalizeTitle_chars (t := t)
    rw [show normalizeTitle (normalizeTitle t) =
        pstrip (collapseWs (plower (((normalizeTitle t).filter
          (fun c => !(c = '{' || c = '}' || c = '$' || c = '\\'))).filter
          (fun c => wordChar c || isWs c)))) from by
      rw [normalizeTitle, if_neg hr]]
    have hf1 : (normalizeTitle t).filter
        (fun c => !(c = '{' || c = '}' || c = '$' || c = '\\')) = normalizeTitle t := by
      rw [List.filter_eq_self]
      intro a ha
      rcases hchars a ha with h | ⟨h, -, -⟩
      · subst h
        decide
      · simp only [Bool.not_eq_eq_eq_not, Bool.not_true, Bool.or_eq_false_iff,
          decide_eq_false_iff_not]
        refine ⟨⟨⟨?_, ?_⟩, ?_⟩, ?_⟩ <;> intro hcon <;> subst hcon <;>
          revert h <;> decide
    have hf2 : (normalizeTitle t).filter (fun c => wordChar c || isWs c) =
        normalizeTitle t := by
      rw [List.filter_eq_self]
      intro a ha
      rcases hchars a ha with h | ⟨h, -, -⟩
      · subst h
        decide
      · simp [h]
    have hmap : plower (normalizeTitle t) = normalizeTitle t := by
      refine map_eq_self_of_mem ?_
      intro x hx
      rcases hchars x hx with h | ⟨-, h, -⟩
      · subst h
        decide
      · exact h
    rw [hf1, hf2, hmap]
    have hcol : collapseWs (normalizeTitle t) = normalizeTitle t := by
      have hch : List.Chain' (fun a d => isWs a = true → isWs d = false)
          (normalizeTitle t) := by
        rw [normalizeTitle, if_neg (by
          intro hcon
          rw [normalizeTitle, if_pos hcon] at hr
          exact hr rfl)]
        exact pstrip_chain (collapseWsAux_chain _ false)
      have hsp : ∀ x ∈ normalizeTitle t, isWs x = true → x = ' ' := by
        intro x hx hw
        rcases hchars x hx with h | ⟨-, -, h⟩
        · exact h
        · rw [hw] at h
          cases h
      exact (collapseWs_fixed_aux _ hch hsp).1
    rw [hcol]
    have : normalizeTitle t = pstrip (collapseWs (plower (((t.filter
        (fun c => !(c = '{' || c = '}' || c = '$' || c = '\\'))).filter
        (fun c => wordChar c || isWs c))))) := by
      rw [normalizeTitle, if_neg (by
        intro hcon
        rw [normalizeTitle, if_pos hcon] at hr
        exact hr rfl)]
    rw [this, pstrip_idem]

theorem mem_foldl_dedup : ∀ (l acc : List Str) (k : Str),
    (k ∈ l.foldl (fun acc k => if k ∈ acc then acc else acc ++ [k]) acc ↔
      k ∈ acc ∨ k ∈ l) := by
  intro l
  induction l with
  | nil => simp
  | cons x r ih =>
    intro acc k
    rw [List.foldl_cons, ih]
    by_cases hx : x ∈ acc
    · simp only [if_pos hx, List.mem_cons]
      constructor
      · rintro (h | h)
        · exact Or.inl h
        · exact Or.inr (Or.inr h)
      · rintro (h | h | h)
        · exact Or.inl h
        · subst h
          exact Or.inl hx
        · exact Or.inr h
    · simp only [if_neg hx, List.mem_append, List.mem_singleton, List.mem_cons]
      tauto

theorem mem_dedupStr {l : List Str} {k : Str} : k ∈ dedupStr l ↔ k ∈ l := by
  rw [dedupStr, mem_foldl_dedup]
  simp

theorem mem_foldl_dup : ∀ (keys l : List Str) (acc : List (Str × Nat)) (k : Str) (n : Nat),
    ((k, n) ∈ keys.foldl
        (fun acc k => if 1 < l.count k then acc ++ [(k, l.count k)] else acc) acc ↔
      (k, n) ∈ acc ∨ (k ∈ keys ∧ l.count k = n ∧ 1 < n)) := by
  intro keys
  induction keys with
  | nil => simp
  | cons x r ih =>
    intro l acc k n
    rw [List.foldl_cons]
    by_cases hx : 1 < l.count x
    · rw [if_pos hx, ih]
      constructor
      · rintro (h | ⟨hm, hcnt, hn⟩)
        · rcases List.mem_append.1 h with h2 | h2
          · exact Or.inl h2
          · have h3 := List.mem_singleton.1 h2
            have hk : k = x := congrArg Prod.fst h3
            have hn2 : n = l.count x := congrArg Prod.snd h3
            subst hk
            exact Or.inr ⟨List.mem_cons_self _ _, hn2.symm, by omega⟩
        · exact Or.inr ⟨List.mem_cons_of_mem _ hm, hcnt, hn⟩
      · rintro (h | ⟨hm, hcnt, hn⟩)
        · exact Or.inl (List.mem_append.2 (Or.inl h))
        · rcases List.mem_cons.1 hm with h4 | hm2
          · subst h4
            exact Or.inl (List.mem_append.2 (Or.inr (by simp [hcnt.symm])))
          · exact Or.inr ⟨hm2, hcnt, hn⟩
    · rw [if_neg hx, ih]
      constructor
      · rintro (h | ⟨hm, hcnt, hn⟩)
        · exact Or.inl h
        · exact Or.inr ⟨List.mem_cons_of_mem _ hm, hcnt, hn⟩
      · rintro (h | ⟨hm, hcnt, hn⟩)
        · exact Or.inl h
        · rcases List.mem_cons.1 hm with h4 | hm2
          · subst h4
            rw [hcnt] at hx
            exact absurd hn hx
          · exact Or.inr ⟨hm2, hcnt, hn⟩

theorem mem_duplicatedOf {l : List Str} {k : Str} {n : Nat} :
    (k, n) ∈ duplicatedOf l ↔ l.count k = n ∧ 1 < n := by
  rw [duplicatedOf, mem_foldl_dup]
  simp only [List.not_mem_nil, false_or]
  constructor
  · rintro ⟨-, h⟩
    exact h
  · rintro ⟨hcnt, hn⟩
    refine ⟨mem_dedupStr.2 ?_, hcnt, hn⟩
    rw [← List.count_pos_iff_mem]
    omega

theorem strLe_total (a b : Str) : strLe a b = true ∨ strLe b a = true := by
  induction a generalizing b with
  | nil => exact Or.inl rfl
  | cons x xs ih =>
    cases b with
    | nil => exact Or.inr rfl
    | cons y ys =>
      rcases Nat.lt_trichotomy x.toNat y.toNat with h | h | h
      · exact Or.inl (by rw [strLe, if_pos h])
      · rcases ih ys with h2 | h2
        · exact Or.inl (by rw [strLe, if_neg (by omega), if_pos h]; exact h2)
        · exact Or.inr (by rw [strLe, if_neg (by omega), if_pos h.symm]; exact h2)
      · exact Or.inr (by rw [strLe, if_pos h])

theorem strLe_trans {a b c : Str} (h1 : strLe a b = true) (h2 : strLe b c = true) :
    strLe a c = true := by
  induction a generalizing b c with
  | nil => rfl
  | cons x xs ih =>
    cases b with
    | nil => cases h1
    | cons y ys =>
      cases c with
      | nil => cases h2
      | cons z zs =>
        rw [strLe] at h1 h2 ⊢
        by_cases hxy : x.toNat < y.toNat
        · by_cases hyz : y.toNat < z.toNat
          · rw [if_pos (by omega)]
          · rw [if_neg hyz] at h2
            by_cases hyz2 : y.toNat = z.toNat
            · rw [if_pos (by omega)]
            · rw [if_neg hyz2] at h2
              cases h2
        · rw [if_neg hxy] at h1
          by_cases hxy2 : x.toNat = y.toNat
          · rw [if_pos hxy2] at h1
            by_cases hyz : y.toNat < z.toNat
            · rw [if_pos (by omega)]
            · rw [if_neg hyz] at h2
              by_cases hyz2 : y.toNat = z.toNat
              · rw [if_pos hyz2] at h2
                rw [if_neg (by omega), if_pos (by omega)]
                exact ih h1 h2
              · rw [if_neg hyz2] at h2
                cases h2
          · rw [if_neg hxy2] at h1
            cases h1

theorem mem_insertS {x y : Str} {l : List Str} :
    x ∈ insertS y l ↔ x = y ∨ x ∈ l := by
  induction l with
  | nil => simp [insertS]
  | cons z r ih =>
    rw [insertS]
    by_cases h : strLe y z = true
    · simp [if_pos h]
    · simp only [if_neg h, List.mem_cons, ih]
      tauto

theorem pairwise_insertS {x : Str} {l : List Str}
    (hl : List.Pairwise (fun a b => strLe a b = true) l) :
    List.Pairwise (fun a b => strLe a b = true) (insertS x l) := by
  induction l with
  | nil => simp [insertS]
  | cons y r ih =>
    rw [insertS]
    by_cases h : strLe x y = true
    · rw [if_pos h]
      refine List.Pairwise.cons ?_ hl
      intro z hz
      rcases List.mem_cons.1 hz with rfl | hz2
      · exact h
      · exact strLe_trans h (List.rel_of_pairwise_cons hl hz2)
    · have hyx : strLe y x = true := by
        rcases strLe_total x y with h2 | h2
        · exact absurd h2 h
        · exact h2
      rw [if_neg h]
      refine List.Pairwise.cons ?_ (ih hl.of_cons)
      intro z hz
      rcases mem_insertS.1 hz with rfl | hz2
      · exact hyx
      · exact List.rel_of_pairwise_cons hl hz2

theorem pairwise_sortStr (l : List Str) :
    List.Pairwise (fun a b => strLe a b = true) (sortStr l) := by
  induction l with
  | nil => simp [sortStr]
  | cons x r ih => exact pairwise_insertS ih

theorem mem_sortStr {x : Str} {l : List Str} : x ∈ sortStr l ↔ x ∈ l := by
  induction l with
  | nil => simp [sortStr]
  | cons y r ih =>
    rw [show sortStr (y :: r) = insertS y (sortStr r) from rfl, mem_insertS, ih]
    simp

/-- C9: the title normalizer is a total pure function; it is idempotent,
maps the empty string to the empty string, and maps
"Fast & \x7bFurious\x7d!" to "fast furious". -/
theorem C9_normalizer :
    (∀ x : Str, normalizeTitle (normalizeTitle x) = normalizeTitle x) ∧
    normalizeTitle [] = [] ∧
    normalizeTitle "Fast & \x7bFurious\x7d!".data = "fast furious".data :=
  ⟨normalizeTitle_idem, rfl, by decide⟩

/-- C4: citation extraction tallies the keys of every citation match
(split on commas, trimmed, empty pieces dropped); `cited_keys` holds
exactly the extracted keys and `duplicated` maps exactly the keys whose
tally exceeds one to that tally; on the text
"\cite\x7ba,b\x7d and \citep\x7bb, c\x7d" it returns cited keys
a, b, c and the duplicate map sending b to 2. -/
theorem C4_citation_extraction :
    (∀ content : Str,
      (∀ k, k ∈ (extractCitations content).1 ↔ k ∈ allCitedKeys content) ∧
      (∀ k n, (k, n) ∈ (extractCitations content).2 ↔
        ((allCitedKeys content).count k = n ∧ 1 < n))) ∧
    (extractCitations "\\cite\x7ba,b\x7d and \\citep\x7bb, c\x7d".data).1 =
      ["a".data, "b".data, "c".data] ∧
    (extractCitations "\\cite\x7ba,b\x7d and \\citep\x7bb, c\x7d".data).2 =
      [("b".data, 2)] := by
  refine ⟨fun content => ⟨fun k => mem_dedupStr, fun k n => mem_duplicatedOf⟩, ?_, ?_⟩ <;>
    decide

/-- C5: on a non-empty library, analysis returns the library keys not
cited (sorted ascending), the cited keys not in the library (sorted
ascending), and the duplicated-citation map passed through unchanged;
library keys a, b, c with cited keys b, c, d give unreferenced `[a]`
and missing `[d]`. -/
theorem C5_cross_reference :
    (∀ (entries : AList BibEntry) (content : Str), entries ≠ [] →
      ∃ r, analyzeTex entries content = .ok r ∧
        (∀ k, k ∈ r.unreferenced ↔
          k ∈ keysA entries ∧ k ∉ (extractCitations content).1) ∧
        (∀ k, k ∈ r.missing ↔
          k ∈ (extractCitations content).1 ∧ k ∉ keysA entries) ∧
        List.Pairwise (fun a b => strLe a b = true) r.unreferenced ∧
        List.Pairwise (fun a b => strLe a b = true) r.missing ∧
        r.duplicates = (extractCitations content).2) ∧
    analyzeTex
      [("a".data, ⟨"a".data, [], [], []⟩), ("b".data, ⟨"b".data, [], [], []⟩),
        ("c".data, ⟨"c".data, [], [], []⟩)]
      "\\cite\x7bb\x7d \\cite\x7bc\x7d \\cite\x7bd\x7d".data =
      .ok ⟨["a".data], ["d".data], []⟩ := by
  constructor
  · intro entries content hne
    rw [analyzeTex, if_neg hne]
    refine ⟨_, rfl, ?_, ?_, pairwise_sortStr _, pairwise_sortStr _, rfl⟩
    · intro k
      rw [mem_sortStr, List.mem_filter, mem_dedupStr]
      simp [extractCitations]
    · intro k
      rw [mem_sortStr, List.mem_filter]
      simp [extractCitations, mem_dedupStr]
  · decide

/-- Witness for C5 at a concrete three-entry library and document. -/
theorem C5_cross_reference_witness :
    ∃ r, analyzeTex
        [("a".data, ⟨"a".data, [], [], []⟩), ("b".data, ⟨"b".data, [], [], []⟩),
          ("c".data, ⟨"c".data, [], [], []⟩)]
        "\\cite\x7bb\x7d \\cite\x7bc\x7d \\cite\x7bd\x7d".data = .ok r ∧
      (∀ k, k ∈ r.unreferenced ↔
        k ∈ keysA [("a".data, (⟨"a".data, [], [], []⟩ : BibEntry)),
          ("b".data, ⟨"b".data, [], [], []⟩), ("c".data, ⟨"c".data, [], [], []⟩)] ∧
        k ∉ (extractCitations "\\cite\x7bb\x7d \\cite\x7bc\x7d \\cite\x7bd\x7d".data).1) ∧
      (∀ k, k ∈ r.missing ↔
        k ∈ (extractCitations "\\cite\x7bb\x7d \\cite\x7bc\x7d \\cite\x7bd\x7d".data).1 ∧
        k ∉ keysA [("a".data, (⟨"a".data, [], [], []⟩ : BibEntry)),
          ("b".data, ⟨"b".data, [], [], []⟩), ("c".data, ⟨"c".data, [], [], []⟩)]) ∧
      List.Pairwise (fun a b => strLe a b = true) r.unreferenced ∧
      List.Pairwise (fun a b => strLe a b = true) r.missing ∧
      r.duplicates =
        (extractCitations "\\cite\x7bb\x7d \\cite\x7bc\x7d \\cite\x7bd\x7d".data).2 :=
  C5_cross_reference.1
    [("a".data, ⟨"a".data, [], [], []⟩), ("b".data, ⟨"b".data, [], [], []⟩),
      ("c".data, ⟨"c".data, [], [], []⟩)]
    "\\cite\x7bb\x7d \\cite\x7bc\x7d \\cite\x7bd\x7d".data (by decide)

/-- C10: an input that is empty or whitespace-only makes
`parse_bib_string` return two empty maps without raising, so the strict
zero-records failure applies only to inputs with non-whitespace
content. -/
theorem C10_blank_input (P : Str → List (Str × RawEntry)) (s : Str)
    (h : ∀ c ∈ s, isWs c = true) : parseBibString P s = .ok ([], []) := by
  rw [parseBibString, if_pos (pstrip_all_ws h)]

/-- Witness for C10 at the whitespace-only input of one space. -/
theorem C10_blank_input_witness :
    parseBibString parseEntryModel " ".data = .ok ([], []) :=
  C10_blank_input parseEntryModel " ".data (by decide)

/-- C8: with an empty library, duplicate checking and citation analysis
fail with the not-loaded error; with a non-empty library that error
never arises; and neither call changes the checker state. -/
theorem C8_not_loaded (R : Str → Str → ℚ) (P : Str → List (Str × RawEntry))
    (u doc : Str) (θ : ℚ) (st : Checker) :
    checkDuplicates R P [] u θ = .error .notLoaded ∧
    analyzeTex [] doc = .error .notLoaded ∧
    (∀ entries : AList BibEntry, entries ≠ [] →
      checkDuplicates R P entries u θ ≠ .error .notLoaded) ∧
    (∀ entries : AList BibEntry, entries ≠ [] →
      analyzeTex entries doc ≠ .error .notLoaded) ∧
    (st.bibEntries = [] →
      (checkDuplicatesS R P st u θ).1 = .error .notLoaded ∧
      (analyzeTexS st doc).1 = .error .notLoaded) ∧
    (checkDuplicatesS R P st u θ).2 = st ∧
    (analyzeTexS st doc).2 = st := by
  refine ⟨by rw [checkDuplicates, if_pos rfl], by rw [analyzeTex, if_pos rfl],
    ?_, ?_, ?_, rfl, rfl⟩
  · intro entries hne
    rw [checkDuplicates, if_neg hne]
    cases parseBibString P u with
    | error e => simp
    | ok p => simp
  · intro entries hne
    rw [analyzeTex, if_neg hne]
    simp
  · intro hemp
    constructor
    · show checkDuplicates R P st.bibEntries u θ = .error .notLoaded
      rw [hemp, checkDuplicates, if_pos rfl]
    · show analyzeTex st.bibEntries doc = .error .notLoaded
      rw [hemp, analyzeTex, if_pos rfl]

/-- Witness for C8 at concrete inputs, including a non-empty library. -/
theorem C8_not_loaded_witness :
    checkDuplicates eqRatio parseEntryModel [] "x".data (9 / 10) =
      .error .notLoaded ∧
    analyzeTex [] "y".data = .error .notLoaded ∧
    checkDuplicates eqRatio parseEntryModel
      [("a".data, ⟨"a".data, [], [], []⟩)] "x".data (9 / 10) ≠
      .error .notLoaded ∧
    analyzeTex [("a".data, ⟨"a".data, [], [], []⟩)] "y".data ≠
      .error .notLoaded ∧
    (checkDuplicatesS eqRatio parseEntryModel ⟨[], [], []⟩ "x".data (9 / 10)).2 =
      (⟨[], [], []⟩ : Checker) := by
  have h1 := C8_not_loaded eqRatio parseEntryModel "x".data "y".data (9 / 10)
    ⟨[], [], []⟩
  exact ⟨h1.1, h1.2.1,
    h1.2.2.1 [("a".data, ⟨"a".data, [], [], []⟩)] (by decide),
    h1.2.2.2.1 [("a".data, ⟨"a".data, [], [], []⟩)] (by decide),
    h1.2.2.2.2.2.1⟩

theorem scanForDup_eq_find (R : Str → Str → ℚ) (θ : ℚ) (ue : BibEntry) :
    ∀ l : AList BibEntry,
      scanForDup R θ ue l = l.find? fun q => matchAccept R θ ue q.2 := by
  intro l
  induction l with
  | nil => rfl
  | cons p rest ih =>
    rw [List.find?_cons]
    by_cases hma : matchAccept R θ ue p.2 = true
    · simp only [hma]
      have h12 := hma
      rw [matchAccept, Bool.and_eq_true] at h12
      rw [scanForDup, if_pos h12.1, if_pos h12.2]
    · rw [Bool.not_eq_true] at hma
      simp only [hma]
      rw [Bool.eq_false_iff] at hma
      rw [scanForDup]
      by_cases h1 : areTitlesSimilar R ue.title p.2.title θ = true
      · have h2 : ¬(decide ((3 : ℚ) / 10 < R ue.year p.2.year) &&
            decide ((3 : ℚ) / 10 < R ue.author p.2.author)) = true := by
          intro hcon
          exact hma (by simp [matchAccept, h1, hcon])
        rw [if_pos h1, if_neg h2, ih]
      · rw [if_neg h1, ih]

theorem foldl_dup_filterMap (R : Str → Str → ℚ) (θ : ℚ) (entries : AList BibEntry) :
    ∀ (l : AList BibEntry) (acc : List DupMatch),
      l.foldl
          (fun acc p =>
            match scanForDup R θ p.2 entries with
            | some q => acc ++ [⟨p.1, q.1, p.2.title, dupReason⟩]
            | none => acc)
          acc =
        acc ++ l.filterMap fun p =>
          (entries.find? fun q => matchAccept R θ p.2 q.2).map
            fun q => ⟨p.1, q.1, p.2.title, dupReason⟩ := by
  intro l
  induction l with
  | nil => simp
  | cons p rest ih =>
    intro acc
    rw [List.foldl_cons, List.filterMap_cons, scanForDup_eq_find]
    cases hf : entries.find? fun q => matchAccept R θ p.2 q.2 with
    | none =>
      rw [ih]
      simp
    | some q =>
      rw [ih]
      simp

/-- C6: for each candidate parsed from the candidate text, the library
is scanned in map order; a record is accepted only when its title
similarity meets the threshold and both the year similarity and the
lower-cased-author similarity strictly exceed 0.3; the first accepted
match is recorded and scanning stops, a candidate with no accepted
match contributes nothing, and so each candidate contributes at most
one match. -/
theorem C6_duplicate_policy (R : Str → Str → ℚ) (P : Str → List (Str × RawEntry))
    (entries : AList BibEntry) (u : Str) (θ : ℚ) (ue : AList BibEntry)
    (ob : AList Str) (hne : entries ≠ [])
    (hp : parseBibString P u = .ok (ue, ob)) :
    checkDuplicates R P entries u θ =
      .ok (ue.filterMap fun p =>
        (entries.find? fun q => matchAccept R θ p.2 q.2).map
          fun q => ⟨p.1, q.1, p.2.title, dupReason⟩) ∧
    (∀ l, checkDuplicates R P entries u θ = .ok l → l.length ≤ ue.length) := by
  have hmain : checkDuplicates R P entries u θ =
      .ok (ue.filterMap fun p =>
        (entries.find? fun q => matchAccept R θ p.2 q.2).map
          fun q => ⟨p.1, q.1, p.2.title, dupReason⟩) := by
    rw [checkDuplicates, if_neg hne, hp]
    simp only [foldl_dup_filterMap, List.nil_append]
  refine ⟨hmain, ?_⟩
  intro l hl
  rw [hmain] at hl
  cases hl
  exact List.length_filterMap_le _ _

/-- Witness for C6: a one-entry library and a matching pasted candidate
(the spec's own duplicate-detection example). -/
theorem C6_duplicate_policy_witness :
    checkDuplicates eqRatio parseEntryModel
      [("A1".data, ⟨"A1".data, "deep learning for nlp".data, "smith".data,
        "2020".data⟩)]
      "@article\x7bc1, title = \x7bDeep Learning for NLP\x7d, author = \x7bSmith\x7d, year = \x7b2020\x7d\x7d".data
      (9 / 10) =
      .ok [⟨"c1".data, "A1".data, "deep learning for nlp".data, dupReason⟩] := by
  have h := C6_duplicate_policy eqRatio parseEntryModel
    [("A1".data, ⟨"A1".data, "deep learning for nlp".data, "smith".data,
      "2020".data⟩)]
    "@article\x7bc1, title = \x7bDeep Learning for NLP\x7d, author = \x7bSmith\x7d, year = \x7b2020\x7d\x7d".data
    (9 / 10)
    [("c1".data, ⟨"c1".data, "deep learning for nlp".data, "smith".data,
      "2020".data⟩)]
    [("c1".data,
      "@article\x7bc1, title = \x7bDeep Learning for NLP\x7d, author = \x7bSmith\x7d, year = \x7b2020\x7d\x7d".data)]
    (by decide) (by decide)
  rw [h.1]
  simp only [List.filterMap, List.find?, matchAccept, areTitlesSimilar, eqRatio,
    if_pos rfl]
  norm_num

theorem assembleMaps_snoc (P : Str → List (Str × RawEntry))
    (bs : List (Str × Str)) (kb : Str × Str) :
    assembleMaps P (bs ++ [kb]) =
      parseAndStore P kb.2 (assembleMaps P bs).1 (assembleMaps P bs).2 := by
  simp [assembleMaps, List.foldl_append]

theorem loadStep_sim (P : Str → List (Str × RawEntry)) (line : Str)
    (st : LState) (sc : ScanSt) (h : relL P st sc) :
    relL P (loadStep P st line) (scanStepL sc line) := by
  obtain ⟨e, o, or, b, d, k⟩ := st
  obtain ⟨out, b2, d2, k2⟩ := sc
  obtain ⟨hb, hd, hk, he, ho, hor⟩ := h
  dsimp only at hb hd hk he ho hor
  subst hb hd hk he ho hor
  by_cases hat : isAtLine line = true
  · cases hlk : lineKey line with
    | none =>
      by_cases hfl : b ≠ [] ∧ d = 0 ∧ keyTruthy k = true
      · obtain ⟨hb1, hd1, hk1⟩ := hfl
        cases k with
        | none => simp [keyTruthy] at hk1
        | some kk =>
          simp [loadStep, scanStepL, scanStepCore, relL, hat, hb1, hd1, hk1,
            hlk, assembleMaps_snoc]
      · simp [loadStep, scanStepL, scanStepCore, relL, hat, hfl, hlk]
    | some nk =>
      by_cases hfl : b ≠ [] ∧ d = 0 ∧ keyTruthy k = true
      · obtain ⟨hb1, hd1, hk1⟩ := hfl
        cases k with
        | none => simp [keyTruthy] at hk1
        | some kk =>
          simp [loadStep, scanStepL, scanStepCore, relL, hat, hb1, hd1, hk1,
            hlk, assembleMaps_snoc]
      · simp [loadStep, scanStepL, scanStepCore, relL, hat, hfl, hlk]
  · by_cases hbne : b = []
    · simp [loadStep, scanStepL, scanStepCore, relL, hat, hbne]
    · simp [loadStep, scanStepL, scanStepCore, relL, hat, hbne]

theorem pbsStep_sim (P : Str → List (Str × RawEntry)) (line : Str)
    (st : LState) (sc : ScanSt) (h : relP P st sc) :
    relP P (pbsStep P st line) (scanStepP sc line) := by
  obtain ⟨e, o, or, b, d, k⟩ := st
  obtain ⟨out, b2, d2, k2⟩ := sc
  obtain ⟨hb, hd, hk, he, ho⟩ := h
  dsimp only at hb hd hk he ho
  subst hb hd hk he ho
  by_cases hat : isAtLine line = true
  · cases hlk : lineKey line with
    | none =>
      by_cases hfl : b ≠ [] ∧ d = 0 ∧ keyTruthy k = true
      · obtain ⟨hb1, hd1, hk1⟩ := hfl
        cases k with
        | none => simp [keyTruthy] at hk1
        | some kk =>
          simp [pbsStep, scanStepP, scanStepCore, relP, hat, hb1, hd1, hk1,
            hlk, assembleMaps_snoc]
      · cases k with
        | none => simp [pbsStep, scanStepP, scanStepCore, relP, hat, hfl, hlk, keyTruthy]
        | some kk =>
          by_cases hkt : keyTruthy (some kk) = true
          · have hnd : ¬(b ≠ [] ∧ d = 0) := fun hc => hfl ⟨hc.1, hc.2, hkt⟩
            simp [pbsStep, scanStepP, scanStepCore, relP, hat, hnd, hlk, hkt]
          · simp [pbsStep, scanStepP, scanStepCore, relP, hat, hfl, hlk, hkt]
    | some nk =>
      by_cases hfl : b ≠ [] ∧ d = 0 ∧ keyTruthy k = true
      · obtain ⟨hb1, hd1, hk1⟩ := hfl
        cases k with
        | none => simp [keyTruthy] at hk1
        | some kk =>
          simp only [pbsStep, scanStepP, scanStepCore, relP, hat, hb1, hd1, hk1,
            hlk, ne_eq, not_false_eq_true, and_self, if_true, ite_true]
          split_ifs <;> simp [assembleMaps_snoc, hb1, hd1, hk1]
      · by_cases hkt : keyTruthy k = true
        · have hnd : ¬(b ≠ [] ∧ d = 0) := fun hc => hfl ⟨hc.1, hc.2, hkt⟩
          cases k with
          | none => simp [keyTruthy] at hkt
          | some kk =>
            by_cases hnt : keyTruthy (some nk) = true
            · simp [pbsStep, scanStepP, scanStepCore, relP, hat, hnd, hlk, hkt, hnt]
            · simp [pbsStep, scanStepP, scanStepCore, relP, hat, hnd, hlk, hkt, hnt]
        · cases k with
          | none =>
            by_cases hnt : keyTruthy (some nk) = true <;>
              simp [pbsStep, scanStepP, scanStepCore, relP, hat, hfl, hlk, hkt,
                keyTruthy, hnt] <;>
              (split_ifs <;> simp)
          | some kk =>
            by_cases hnt : keyTruthy (some nk) = true
            · simp [pbsStep, scanStepP, scanStepCore, relP, hat, hfl, hlk, hkt, hnt]
            · simp [pbsStep, scanStepP, scanStepCore, relP, hat, hfl, hlk, hkt, hnt]
  · by_cases hkt : keyTruthy k = true
    · simp [pbsStep, scanStepP, scanStepCore, relP, hat, hkt]
    · simp [pbsStep, scanStepP, scanStepCore, relP, hat, hkt]

theorem loadFinish_sim (P : Str → List (Str × RawEntry))
    (st : LState) (sc : ScanSt) (h : relL P st sc) :
    (loadFinish P st).entries = (assembleMaps P (scanFinish sc)).1 ∧
    (loadFinish P st).originals = (assembleMaps P (scanFinish sc)).2 ∧
    (loadFinish P st).order = (scanFinish sc).map Prod.fst := by
  obtain ⟨e, o, or, b, d, k⟩ := st
  obtain ⟨out, b2, d2, k2⟩ := sc
  obtain ⟨hb, hd, hk, he, ho, hor⟩ := h
  dsimp only at hb hd hk he ho hor
  subst hb hd hk he ho hor
  by_cases hfl : pstrip b ≠ [] ∧ keyTruthy k = true
  · obtain ⟨hb1, hk1⟩ := hfl
    cases k with
    | none => simp [keyTruthy] at hk1
    | some kk =>
      simp [loadFinish, scanFinish, hb1, hk1, assembleMaps_snoc]
  · simp [loadFinish, scanFinish, hfl]

theorem pbsFinish_sim (P : Str → List (Str × RawEntry))
    (st : LState) (sc : ScanSt) (h : relP P st sc) :
    (pbsFinish P st).entries = (assembleMaps P (scanFinish sc)).1 ∧
    (pbsFinish P st).originals = (assembleMaps P (scanFinish sc)).2 := by
  obtain ⟨e, o, or, b, d, k⟩ := st
  obtain ⟨out, b2, d2, k2⟩ := sc
  obtain ⟨hb, hd, hk, he, ho⟩ := h
  dsimp only at hb hd hk he ho
  subst hb hd hk he ho
  by_cases hfl : pstrip b ≠ [] ∧ keyTruthy k = true
  · obtain ⟨hb1, hk1⟩ := hfl
    cases k with
    | none => simp [keyTruthy] at hk1
    | some kk =>
      simp [pbsFinish, scanFinish, hb1, hk1, assembleMaps_snoc]
  · simp [pbsFinish, scanFinish, hfl]

theorem foldl_loadStep_sim (P : Str → List (Str × RawEntry)) :
    ∀ (ls : List Str) (st : LState) (sc : ScanSt), relL P st sc →
      relL P (ls.foldl (loadStep P) st) (ls.foldl scanStepL sc)
  | [], _, _, h => h
  | _ :: ls, st, sc, h =>
    foldl_loadStep_sim P ls _ _ (loadStep_sim P _ st sc h)

theorem foldl_pbsStep_sim (P : Str → List (Str × RawEntry)) :
    ∀ (ls : List Str) (st : LState) (sc : ScanSt), relP P st sc →
      relP P (ls.foldl (pbsStep P) st) (ls.foldl scanStepP sc)
  | [], _, _, h => h
  | _ :: ls, st, sc, h =>
    foldl_pbsStep_sim P ls _ _ (pbsStep_sim P _ st sc h)

theorem relL_init (P : Str → List (Str × RawEntry)) : relL P initL initScan :=
  ⟨rfl, rfl, rfl, rfl, rfl, rfl⟩

theorem relP_init (P : Str → List (Str × RawEntry)) : relP P initL initScan :=
  ⟨rfl, rfl, rfl, rfl, rfl⟩

theorem loadBib_assemble (P : Str → List (Str × RawEntry)) (content : Str) :
    loadBib P content =
      ⟨(assembleMaps P (scanBlocksL (splitLines content))).1,
        (assembleMaps P (scanBlocksL (splitLines content))).2,
        (scanBlocksL (splitLines content)).map Prod.fst⟩ := by
  have h1 := foldl_loadStep_sim P (splitLines content) initL initScan (relL_init P)
  have h2 := loadFinish_sim P _ _ h1
  rw [loadBib, scanBlocksL] at *
  rw [h2.1, h2.2.1, h2.2.2]

theorem parseBibString_assemble (P : Str → List (Str × RawEntry)) (s : Str) :
    parseBibString P s =
      if pstrip s = [] then .ok ([], [])
      else
        if (assembleMaps P (scanBlocksP (splitLines s))).1 = [] then
          .error .parseErr
        else .ok (assembleMaps P (scanBlocksP (splitLines s))) := by
  have h1 := foldl_pbsStep_sim P (splitLines s) initL initScan (relP_init P)
  have h2 := pbsFinish_sim P _ _ h1
  simp only [parseBibString, scanBlocksP]
  rw [h2.1, h2.2]

theorem keysA_dinsert {V : Type} (k : Str) (v : V) (m : AList V) :
    keysA (dinsert k v m) = if k ∈ keysA m then keysA m else keysA m ++ [k] := by
  rw [dinsert]
  split_ifs with hk
  · rw [keysA, List.map_map, keysA]
    refine List.map_congr_left ?_
    intro p hp
    by_cases h : p.1 = k <;> simp [h]
  · simp [keysA]

theorem parseAndStore_keys (P : Str → List (Str × RawEntry)) (b : Str) :
    ∀ (l : List (Str × RawEntry)) (e : AList BibEntry) (o : AList Str),
      keysA e = keysA o →
      keysA (l.foldl
        (fun acc x => (dinsert x.1 (mkEntry x.1 x.2) acc.1,
          dinsert x.1 (pstrip b) acc.2)) (e, o)).1 =
      keysA (l.foldl
        (fun acc x => (dinsert x.1 (mkEntry x.1 x.2) acc.1,
          dinsert x.1 (pstrip b) acc.2)) (e, o)).2
  | [], _, _, h => h
  | x :: xs, e, o, h =>
    parseAndStore_keys P b xs _ _ (by rw [keysA_dinsert, keysA_dinsert, h])

theorem assembleMaps_keys_aux (P : Str → List (Str × RawEntry)) :
    ∀ (bs : List (Str × Str)) (e : AList BibEntry) (o : AList Str),
      keysA e = keysA o →
      keysA (bs.foldl (fun eo kb => parseAndStore P kb.2 eo.1 eo.2) (e, o)).1 =
      keysA (bs.foldl (fun eo kb => parseAndStore P kb.2 eo.1 eo.2) (e, o)).2
  | [], _, _, h => h
  | kb :: bs, e, o, h =>
    assembleMaps_keys_aux P bs _ _ (parseAndStore_keys P kb.2 (P kb.2) e o h)

theorem assembleMaps_keys (P : Str → List (Str × RawEntry)) (bs : List (Str × Str)) :
    keysA (assembleMaps P bs).1 = keysA (assembleMaps P bs).2 :=
  assembleMaps_keys_aux P bs [] [] rfl

/-- C1 (amended): after any full-file parse, the parsed-record map and
the verbatim-text map have identical key sets — `_parse_and_store`
inserts into both under the same decoded key, for any block decoder —
but `entry_order` is NOT synchronized with them: a flushed block whose
parse fails still appends its scanner key to `entry_order` while the
maps stay untouched. -/
theorem C1_key_sets (P : Str → List (Str × RawEntry)) (content : Str) :
    keysA (loadBib P content).entries = keysA (loadBib P content).originals := by
  rw [loadBib_assemble]
  exact assembleMaps_keys P _

/-- Counterexample to C1 as stated: on the input `@article{k,` the
flushed block fails to parse, yet its key is appended to `entry_order`;
the order list holds `k` while both maps are empty, so the three key
sets are not identical. -/
theorem C1_key_sets_counterexample :
    (loadBib parseEntryModel "@article\x7bk,".data).order = ["k".data] ∧
    (loadBib parseEntryModel "@article\x7bk,".data).entries = [] ∧
    (loadBib parseEntryModel "@article\x7bk,".data).originals = [] := by
  decide

/-- C7 (amended): for input whose stripped form is non-empty, the batch
parser fails with the parse error exactly when zero records decode from
the scanned blocks, and a successful return carries two maps with
identical key sets (they are updated together); but the claim's "every
non-empty input" is too strong — a whitespace-only input is non-empty
yet returns two empty maps without error. -/
theorem C7_strict_fragment (P : Str → List (Str × RawEntry)) (s : Str)
    (hs : pstrip s ≠ []) :
    (parseBibString P s = .error .parseErr ↔
      (assembleMaps P (scanBlocksP (splitLines s))).1 = []) ∧
    (∀ e o, parseBibString P s = .ok (e, o) → keysA e = keysA o) := by
  have h := parseBibString_assemble P s
  rw [if_neg hs] at h
  constructor
  · constructor
    · intro he
      by_contra hne
      rw [if_neg hne, he] at h
      cases h
    · intro hz
      rw [if_pos hz] at h
      exact h
  · intro e o hok
    by_cases hz : (assembleMaps P (scanBlocksP (splitLines s))).1 = []
    · rw [if_pos hz, hok] at h
      cases h
    · rw [if_neg hz, hok] at h
      have h2 := Except.ok.inj h
      have he2 : e = (assembleMaps P (scanBlocksP (splitLines s))).1 := by
        rw [← h2]
      have ho2 : o = (assembleMaps P (scanBlocksP (splitLines s))).2 := by
        rw [← h2]
      rw [he2, ho2]
      exact assembleMaps_keys P _

/-- Witness for C7 at the concrete inputs `junk` (no record decodes:
the parse error) and a well-formed single record (success with equal
key sets). -/
theorem C7_strict_fragment_witness :
    pstrip "junk".data ≠ [] ∧
    (parseBibString parseEntryModel "junk".data = .error .parseErr ↔
      (assembleMaps parseEntryModel
        (scanBlocksP (splitLines "junk".data))).1 = []) ∧
    (∀ e o, parseBibString parseEntryModel
        "@misc\x7bm, title = \x7bt\x7d\x7d".data = .ok (e, o) →
      keysA e = keysA o) :=
  ⟨by decide,
   (C7_strict_fragment parseEntryModel "junk".data (by decide)).1,
   (C7_strict_fragment parseEntryModel
     "@misc\x7bm, title = \x7bt\x7d\x7d".data (by decide)).2⟩

/-- Counterexample to C7 as stated: the one-space input is a non-empty
text on which zero records decode, yet `parse_bib_string` does not fail
— it returns two empty maps. -/
theorem C7_strict_fragment_counterexample :
    " ".data ≠ [] ∧
    parseBibString parseEntryModel " ".data = .ok ([], []) := by
  decide

/-- C2 (amended): on a line whose stripped form starts with `@`, the
scanner terminates (flushes) the previous block only if the running
brace depth is exactly zero (and the block is non-empty with a truthy
key); but at nonzero depth the previous block is not preserved — it is
unconditionally discarded and a fresh block starts at the `@` line, so
a record whose field value contains an `@`-starting line is split and
its leading content is lost. -/
theorem C2_brace_guard (st : ScanSt) (l : Str) (hat : isAtLine l = true) :
    ((st.depth ≠ 0 ∨ st.block = [] ∨ keyTruthy st.key = false) →
      (scanStepL st l).out = st.out ∧
      (scanStepL st l).block = l ++ [Char.ofNat 10]) ∧
    (∀ k, st.depth = 0 → st.block ≠ [] → st.key = some k →
      keyTruthy (some k) = true →
      (scanStepL st l).out = st.out ++ [(k, st.block)] ∧
      (scanStepL st l).block = l ++ [Char.ofNat 10]) := by
  obtain ⟨out, b, d, k⟩ := st
  constructor
  · intro hng
    have hnf : ¬(b ≠ [] ∧ d = 0 ∧ keyTruthy k = true) := by
      rcases hng with h | h | h
      · exact fun hc => h hc.2.1
      · exact fun hc => hc.1 h
      · exact fun hc => by rw [hc.2.2] at h; cases h
    simp [scanStepL, scanStepCore, hat, hnf]
  · intro k2 hd hb hk hkt
    subst hd hk
    simp [scanStepL, scanStepCore, hat, hb, hkt]

/-- Witness for C2: one step on the line `@misc\x7bb,` from a state
holding an open block at depth 1 (first part: nothing flushed, block
replaced), and from a balanced state at depth 0 (second part: the block
is flushed under its key). -/
theorem C2_brace_guard_witness :
    isAtLine "@misc\x7bb,".data = true ∧
    (scanStepL ⟨[], "@article\x7ba,\n".data, 1, some "a".data⟩
        "@misc\x7bb,".data).out = [] ∧
    (scanStepL ⟨[], "@x\x7ba, t = v\x7d\n".data, 0, some "a".data⟩
        "@misc\x7bb,".data).out =
      [("a".data, "@x\x7ba, t = v\x7d\n".data)] := by
  refine ⟨by decide, ?_, ?_⟩
  · exact ((C2_brace_guard ⟨[], "@article\x7ba,\n".data, 1, some "a".data⟩
      "@misc\x7bb,".data (by decide)).1 (Or.inl (by decide))).1
  · exact ((C2_brace_guard ⟨[], "@x\x7ba, t = v\x7d\n".data, 0, some "a".data⟩
      "@misc\x7bb,".data (by decide)).2 "a".data rfl (by decide) rfl
      (by decide)).1

/-- Counterexample to C2 as stated: in a record whose `note` field value
contains a brace-delimited sub-block with an `@`-starting line, the
record IS split — the `@misc` line arrives at positive depth, the open
`@article\x7ba` block is discarded (never flushed, its content in no
emitted block), and the library retains only the inner key `b`. -/
theorem C2_brace_guard_counterexample :
    scanBlocksL (splitLines
        "@article\x7ba,\n  note = \x7bsee\n@misc\x7bb, title = \x7bx\x7d\x7d\n  end\x7d\n\x7d".data) =
      [("b".data,
        "@misc\x7bb, title = \x7bx\x7d\x7d\n  end\x7d\n\x7d\n".data)] ∧
    (loadBib parseEntryModel
        "@article\x7ba,\n  note = \x7bsee\n@misc\x7bb, title = \x7bx\x7d\x7d\n  end\x7d\n\x7d".data).order =
      ["b".data] := by
  decide

theorem mem_linesJoin : ∀ (L : List Str) {c : Char}, c ∈ linesJoin L →
    c = '\n' ∨ ∃ l ∈ L, c ∈ l := by
  intro L
  induction L with
  | nil => intro c hc; cases hc
  | cons l r ih =>
    intro c hc
    rw [linesJoin_cons] at hc
    rcases List.mem_append.1 hc with h | h
    · exact Or.inr ⟨l, by simp, h⟩
    · rcases List.mem_cons.1 h with h | h
      · exact Or.inl h
      · rcases ih h with h | ⟨lo, hlo, hc2⟩
        · exact Or.inl h
        · exact Or.inr ⟨lo, by simp [hlo], hc2⟩

theorem ltrim_getLast {s : Str} (h : ltrim s ≠ []) (hs : s ≠ []) :
    (ltrim s).getLast h = s.getLast hs := by
  obtain ⟨hdec, -⟩ := ltrim_decomp s
  conv_rhs => rw [show s.getLast hs = (s.takeWhile isWs ++ ltrim s).getLast
    (by rw [← hdec]; exact hs) from by congr 1]
  rw [List.getLast_append_of_ne_nil h]

theorem pstrip_getLast_not_ws {s : Str} (h : pstrip s ≠ []) :
    isWs ((pstrip s).getLast h) = false := by
  have hrne : rtrim s ≠ [] := by
    intro hcon
    rw [pstrip, hcon] at h
    exact h rfl
  have h1 : (pstrip s).getLast h = (rtrim s).getLast hrne :=
    ltrim_getLast (s := rtrim s) h hrne
  rw [h1]
  have h2 := List.rdropWhile_last_not isWs s hrne
  simpa using h2

theorem pstrip_rtrim (l : Str) : pstrip (rtrim l) = pstrip l := by
  rw [pstrip, rtrim_idem]
  rfl

theorem isAtLine_rtrim (l : Str) : isAtLine (rtrim l) = isAtLine l := by
  rw [isAtLine, isAtLine, pstrip_rtrim]

theorem rtrim_cons_decomp {c : Char} {r : Str} (h : rtrim (c :: r) ≠ []) :
    rtrim (c :: r) = c :: rtrim r := by
  have happ : rtrim (c :: r) = if rtrim r = [] then rtrim [c] else [c] ++ rtrim r := by
    rw [show c :: r = [c] ++ r from rfl] at h ⊢
    exact rtrim_append_eq [c] r
  by_cases hr : rtrim r = []
  · rw [happ, if_pos hr]
    rw [happ, if_pos hr] at h
    cases hc : isWs c with
    | true => rw [rtrim, show [c] = [] ++ [c] from rfl,
        List.rdropWhile_concat_pos _ _ c hc] at h; simp at h
    | false =>
      rw [rtrim, show [c] = [] ++ [c] from rfl,
        List.rdropWhile_concat_neg _ _ c (by simp [hc]), hr]
      rfl
  · rw [happ, if_neg hr]
    rfl

theorem isAtLine_cons_at (r : Str) : isAtLine ('@' :: r) = true := by
  have hne : rtrim ('@' :: r) ≠ [] :=
    rtrim_ne_nil (List.mem_cons_self '@' r) (by decide)
  rw [isAtLine, pstrip, rtrim_cons_decomp hne, ltrim_cons_nws (by decide)]
  rfl

theorem keyTruthy_of_ne {k : Str} (h : k ≠ []) : keyTruthy (some k) = true := by
  cases k with
  | nil => exact absurd rfl h
  | cons c r => rfl

theorem takeWhile_append_all {p : Char → Bool} :
    ∀ {a : Str} (x : Char) (y : Str), (∀ c ∈ a, p c = true) → p x = false →
      (a ++ x :: y).takeWhile p = a ∧ (a ++ x :: y).dropWhile p = x :: y := by
  intro a
  induction a with
  | nil =>
    intro x y _ hx
    simp [List.takeWhile_cons, List.dropWhile_cons, hx]
  | cons c r ih =>
    intro x y ha hx
    have hc : p c = true := ha c (by simp)
    have := ih x y (fun d hd => ha d (by simp [hd])) hx
    simp [List.takeWhile_cons, List.dropWhile_cons, hc, this.1, this.2]

theorem append_no_mem_prefix {y q : List Char} :
    ∀ {p x : List Char}, '\n' ∉ p → x ++ '\n' :: y = p ++ q →
      ∃ d, x = p ++ d := by
  intro p
  induction p with
  | nil => exact fun {x} _ _ => ⟨x, rfl⟩
  | cons c r ih =>
    intro x hp h
    cases x with
    | nil =>
      rw [List.nil_append] at h
      have : c = '\n' := (List.cons_eq_cons.1 h.symm).1
      exact absurd (by rw [this]; exact List.mem_cons_self _ _) hp
    | cons a x2 =>
      have h1 : a = c := (List.cons_eq_cons.1 h).1
      have h2 : x2 ++ '\n' :: y = r ++ q := (List.cons_eq_cons.1 h).2
      obtain ⟨d, hd⟩ := ih (fun hm => hp (List.mem_cons_of_mem c hm)) h2
      exact ⟨d, by rw [h1, hd]; rfl⟩

theorem parseEntryCore_structure {t k : Str} {r : RawEntry}
    (h : parseEntryCore t = some (k, r)) :
    ∃ w rest, t = '@' :: (w ++ '{' :: (k ++ ',' :: rest)) ∧ w ≠ [] ∧
      (∀ c ∈ w, wordChar c = true) ∧ k ≠ [] ∧ (∀ c ∈ k, keyChar c = true) := by
  cases t with
  | nil => simp [parseEntryCore] at h
  | cons c r1 =>
    by_cases hc : c = '@'
    · subst hc
      by_cases hw : r1.takeWhile wordChar = []
      · simp [parseEntryCore, hw] at h
      · rcases hdrop : r1.dropWhile wordChar with _ | ⟨c2, r2⟩
        · simp [parseEntryCore, hw, hdrop] at h
        · by_cases hc2 : c2 = '{'
          · subst hc2
            by_cases hk : r2.takeWhile keyChar = []
            · simp [parseEntryCore, hw, hdrop, hk] at h
            · rcases hdrop2 : r2.dropWhile keyChar with _ | ⟨c3, r3⟩
              · simp [parseEntryCore, hw, hdrop, hk, hdrop2] at h
              · by_cases hc3 : c3 = ','
                · subst hc3
                  rcases hpf : parseFields (r3.length + 1) r3 [] with _ | fields
                  · simp [parseEntryCore, hw, hdrop, hk, hdrop2, hpf] at h
                  · simp only [parseEntryCore, hw, hdrop, hk, hdrop2, hpf,
                      if_neg hw, if_neg hk] at h
                    have hkey : r2.takeWhile keyChar = k :=
                      congrArg Prod.fst (Option.some.inj h)
                    refine ⟨r1.takeWhile wordChar, r3, ?_, hw, ?_, ?_, ?_⟩
                    · have e1 : r1 = r1.takeWhile wordChar ++ r1.dropWhile wordChar :=
                        (List.takeWhile_append_dropWhile _ _).symm
                      have e2 : r2 = r2.takeWhile keyChar ++ r2.dropWhile keyChar :=
                        (List.takeWhile_append_dropWhile _ _).symm
                      rw [hdrop] at e1
                      rw [hdrop2, hkey] at e2
                      congr 1
                      conv_lhs => rw [e1]
                      congr 1
                      rw [List.cons_eq_cons]
                      exact ⟨rfl, e2⟩
                    · exact fun c hc => List.mem_takeWhile_imp hc
                    · rw [← hkey]
                      exact hk
                    · rw [← hkey]
                      exact fun c hc => List.mem_takeWhile_imp hc
                · simp [parseEntryCore, hw, hdrop, hk, hdrop2, hc3] at h
          · simp [parseEntryCore, hw, hdrop, hc2] at h
    · simp [parseEntryCore, hc] at h

theorem keyChar_split {c : Char} (h : keyChar c = true) :
    isWs c = false ∧ c ≠ ',' ∧ c ≠ '{' ∧ c ≠ '}' := by
  simp only [keyChar, Bool.and_eq_true, Bool.not_eq_true'] at h
  refine ⟨h.1.1.1, ?_, ?_, ?_⟩
  · intro hc; rw [hc] at h; simp at h
  · intro hc; rw [hc] at h; simp at h
  · intro hc; rw [hc] at h; simp at h

theorem wordChar_ne_nl {c : Char} (h : wordChar c = true) : c ≠ '\n' := by
  intro hc
  rw [hc] at h
  exact absurd h (by decide)

theorem keyChar_ne_nl {c : Char} (h : keyChar c = true) : c ≠ '\n' := by
  intro hc
  rw [hc] at h
  exact absurd h (by decide)

theorem takeKeyCap_concrete {w k : Str} (r : Str) (hw : w ≠ [])
    (hwc : ∀ c ∈ w, wordChar c = true) (hk : k ≠ [])
    (hkc : ∀ c ∈ k, keyChar c = true) :
    takeKeyCap (w ++ '{' :: (k ++ ',' :: r)) = some k := by
  obtain ⟨ht, hd⟩ := takeWhile_append_all (p := wordChar) '{' (k ++ ',' :: r)
    hwc (by decide)
  have hkns : ∀ c ∈ k, (!(c = ',') : Bool) = true := by
    intro c hc
    simp [(keyChar_split (hkc c hc)).2.1]
  obtain ⟨ht2, -⟩ := takeWhile_append_all (p := fun c => !(c = ',')) ',' r
    hkns (by decide)
  have hps : pstrip k = k :=
    pstrip_no_ws (fun c hc => (keyChar_split (hkc c hc)).1)
  rw [takeKeyCap]
  simp only [ht, hd, ht2]
  rw [if_neg hw, if_neg hk, hps]

theorem lineKey_concrete {w k : Str} (r : Str) (hw : w ≠ [])
    (hwc : ∀ c ∈ w, wordChar c = true) (hk : k ≠ [])
    (hkc : ∀ c ∈ k, keyChar c = true) :
    ∀ u : Str, (∀ c ∈ u, isWs c = true) →
      lineKey (u ++ '@' :: (w ++ '{' :: (k ++ ',' :: r))) = some k := by
  intro u
  induction u with
  | nil =>
    intro _
    rw [List.nil_append, lineKey]
    simp [takeKeyCap_concrete r hw hwc hk hkc]
  | cons c u2 ih =>
    intro hu
    have hc : ¬(c = '@') := by
      intro hcc
      rw [hcc] at hu
      exact absurd (hu '@' (by simp)) (by decide)
    rw [List.cons_append, lineKey, if_neg hc]
    exact ih (fun d hd => hu d (by simp [hd]))

theorem GoodPair_key_eq {k b k2 : Str} {r : RawEntry} (hg : GoodPair k b)
    (hp : parseEntryCore (pstrip b) = some (k2, r)) : k = k2 := by
  obtain ⟨l₀, ls, hb, hat, htail, hclean, hlk, hkt⟩ := hg
  obtain ⟨w, rest, hshape, hw, hwc, hk2, hkc⟩ := parseEntryCore_structure hp
  have hlkey : lineKey l₀ = some k2 := by
    have hbeq : b = l₀ ++ '\n' :: linesJoin ls := by rw [hb, linesJoin_cons]
    have hltne : ltrim l₀ ≠ [] := by
      intro hcon
      have hz : pstrip l₀ = [] := by
        rw [pstrip, ltrim_rtrim_comm, hcon]
        simp [rtrim]
      rw [isAtLine, hz] at hat
      simp at hat
    have hmain : ∃ d, ltrim l₀ = ('@' :: (w ++ '{' :: (k2 ++ [',']))) ++ d := by
      by_cases hR : rtrim ('\n' :: linesJoin ls) = []
      · have h1 : pstrip b = rtrim (ltrim l₀) := by
          rw [hbeq, pstrip, rtrim_append_eq, if_pos hR, ltrim_rtrim_comm]
        obtain ⟨ws2, hdec, hws2⟩ := rtrim_decomp (ltrim l₀)
        refine ⟨rest ++ ws2, ?_⟩
        rw [hdec, ← h1, hshape]
        simp
      · have hT : rtrim ('\n' :: linesJoin ls) = '\n' :: rtrim (linesJoin ls) :=
          rtrim_cons_decomp hR
        have h1 : pstrip b = ltrim l₀ ++ '\n' :: rtrim (linesJoin ls) := by
          rw [hbeq, pstrip, rtrim_append_eq, if_neg hR, hT, ltrim_append_eq,
            if_neg hltne]
        have hnl : '\n' ∉ ('@' :: (w ++ '{' :: (k2 ++ [','])) : Str) := by
          intro hm
          rcases List.mem_cons.1 hm with hm1 | hm1
          · cases hm1
          rcases List.mem_append.1 hm1 with hm2 | hm2
          · exact wordChar_ne_nl (hwc _ hm2) rfl
          rcases List.mem_cons.1 hm2 with hm3 | hm3
          · cases hm3
          rcases List.mem_append.1 hm3 with hm4 | hm4
          · exact keyChar_ne_nl (hkc _ hm4) rfl
          · exact absurd (List.mem_singleton.1 hm4) (by decide)
        have heq : ltrim l₀ ++ '\n' :: rtrim (linesJoin ls) =
            ('@' :: (w ++ '{' :: (k2 ++ [',']))) ++ rest := by
          rw [← h1, hshape]
          simp
        exact append_no_mem_prefix hnl heq
    obtain ⟨d, hd⟩ := hmain
    obtain ⟨hdec0, hws0⟩ := ltrim_decomp l₀
    have hform : l₀ = l₀.takeWhile isWs ++ '@' :: (w ++ '{' :: (k2 ++ ',' :: d)) := by
      conv_lhs => rw [hdec0]
      rw [hd]
      simp
    rw [hform]
    exact lineKey_concrete d hw hwc hk2 hkc (l₀.takeWhile isWs) hws0
  rcases hlk with h | h
  · rw [hlkey] at h
    exact Option.some.inj h.symm
  · rw [hlkey] at h
    cases h

theorem braceDelta_nl : braceDelta ['\n'] = 0 := by decide

theorem braceDelta_line_append (b l : Str) :
    braceDelta (b ++ l ++ ['\n']) = braceDelta b + braceDelta l := by
  rw [braceDelta_append, braceDelta_append, braceDelta_nl]
  ring

theorem scanStepL_inv (l : Str) (hc : cleanLine l) (sc : ScanSt)
    (h : ScanInv sc) : ScanInv (scanStepL sc l) := by
  obtain ⟨out, b, d, k⟩ := sc
  obtain ⟨hout, hblk⟩ := h
  by_cases hat : isAtLine l = true
  · by_cases hfl : b ≠ [] ∧ d = 0 ∧ keyTruthy k = true
    · obtain ⟨hb1, hd1, hk1⟩ := hfl
      cases k with
      | none => simp [keyTruthy] at hk1
      | some kk =>
        obtain ⟨l₀, ls, hsh, hat0, htl, hcl, hkey, hdep⟩ := hblk hb1
        have hstep : scanStepL ⟨out, b, d, some kk⟩ l =
            ⟨out ++ [(kk, b)], l ++ ['\n'], braceDelta l, match lineKey l with
              | some nk => some nk | none => some kk⟩ := by
          simp [scanStepL, scanStepCore, hat, hb1, hd1, hk1]
        rw [hstep]
        refine ⟨?_, ?_⟩
        · intro p hp
          rcases List.mem_append.1 hp with hp | hp
          · exact hout p hp
          · rw [List.mem_singleton.1 hp]
            refine ⟨⟨l₀, ls, hsh, hat0, htl, hcl, ?_, hk1⟩, ?_⟩
            · cases hlk0 : lineKey l₀ with
              | none => exact Or.inr rfl
              | some k0 =>
                have h6 : kk = k0 := Option.some.inj (hkey k0 hlk0)
                exact Or.inl (by rw [← h6])
            · dsimp only
              rw [← hdep]
              exact hd1
        · intro hbne
          refine ⟨l, [], ?_, hat, by simp, ?_, ?_, ?_⟩
          · rw [linesJoin_cons]
            rfl
          · intro x hx
            rcases List.mem_cons.1 hx with hx | hx
            · rw [hx]; exact hc
            · cases hx
          · intro k3 hk3
            dsimp only
            rw [hk3]
          · show braceDelta l = braceDelta (l ++ ['\n'])
            rw [braceDelta_append, braceDelta_nl]
            ring
    · have hstep : scanStepL ⟨out, b, d, k⟩ l =
          ⟨out, l ++ ['\n'], braceDelta l, match lineKey l with
            | some nk => some nk | none => k⟩ := by
        simp [scanStepL, scanStepCore, hat, hfl]
      rw [hstep]
      refine ⟨hout, ?_⟩
      intro hbne
      refine ⟨l, [], ?_, hat, by simp, ?_, ?_, ?_⟩
      · rw [linesJoin_cons]
        rfl
      · intro x hx
        rcases List.mem_cons.1 hx with hx | hx
        · rw [hx]; exact hc
        · cases hx
      · intro k3 hk3
        dsimp only
        rw [hk3]
      · show braceDelta l = braceDelta (l ++ ['\n'])
        rw [braceDelta_append, braceDelta_nl]
        ring
  · by_cases hbe : b = []
    · have hstep : scanStepL ⟨out, b, d, k⟩ l = ⟨out, b, d, k⟩ := by
        simp [scanStepL, scanStepCore, hat, hbe]
      rw [hstep]
      exact ⟨hout, hblk⟩
    · have hstep : scanStepL ⟨out, b, d, k⟩ l =
          ⟨out, b ++ l ++ ['\n'], d + braceDelta l, k⟩ := by
        simp [scanStepL, scanStepCore, hat, hbe]
      rw [hstep]
      obtain ⟨l₀, ls, hsh, hat0, htl, hcl, hkey, hdep⟩ := hblk hbe
      refine ⟨hout, ?_⟩
      intro hbne
      refine ⟨l₀, ls ++ [l], ?_, hat0, ?_, ?_, ?_, ?_⟩
      · show b ++ l ++ ['\n'] = linesJoin (l₀ :: (ls ++ [l]))
        rw [show l₀ :: (ls ++ [l]) = (l₀ :: ls) ++ [l] from rfl,
          linesJoin_append, ← hsh, linesJoin_cons]
        simp [linesJoin]
      · intro x hx
        rcases List.mem_append.1 hx with hx | hx
        · exact htl x hx
        · rw [List.mem_singleton.1 hx]
          simp only [Bool.not_eq_true] at hat
          exact hat
      · intro x hx
        rcases List.mem_cons.1 hx with hx | hx
        · exact hcl x (by rw [hx]; exact List.mem_cons_self _ _)
        · rcases List.mem_append.1 hx with hx | hx
          · exact hcl x (List.mem_cons_of_mem _ hx)
          · rw [List.mem_singleton.1 hx]
            exact hc
      · intro k3 hk3
        exact hkey k3 hk3
      · show d + braceDelta l = braceDelta (b ++ l ++ ['\n'])
        rw [braceDelta_line_append, ← hdep]

theorem foldl_scanStepL_inv :
    ∀ (L : List Str), (∀ l ∈ L, cleanLine l) → ∀ (sc : ScanSt), ScanInv sc →
      ScanInv (L.foldl scanStepL sc)
  | [], _, _, h => h
  | l :: L, hL, sc, h =>
    foldl_scanStepL_inv L (fun x hx => hL x (List.mem_cons_of_mem l hx)) _
      (scanStepL_inv l (hL l (List.mem_cons_self l L)) sc h)

theorem scanInv_init : ScanInv initScan :=
  ⟨fun p hp => absurd hp (List.not_mem_nil p), fun hb => absurd rfl hb⟩

theorem scanFinish_good {sc : ScanSt} (h : ScanInv sc) :
    (∀ p ∈ scanFinish sc, GoodPair p.1 p.2) ∧
      ∀ p ∈ (scanFinish sc).dropLast, braceDelta p.2 = 0 := by
  obtain ⟨hout, hblk⟩ := h
  rw [scanFinish]
  by_cases hfl : pstrip sc.block ≠ [] ∧ keyTruthy sc.key = true
  · obtain ⟨hb1, hk1⟩ := hfl
    have hbne : sc.block ≠ [] := by
      intro hcon
      rw [hcon] at hb1
      exact hb1 rfl
    cases hks : sc.key with
    | none => rw [hks] at hk1; simp [keyTruthy] at hk1
    | some kk =>
      rw [hks] at hk1
      rw [if_pos ⟨hb1, hk1⟩]
      obtain ⟨l₀, ls, hsh, hat0, htl, hcl, hkey, hdep⟩ := hblk hbne
      constructor
      · intro p hp
        rcases List.mem_append.1 hp with hp | hp
        · exact (hout p hp).1
        · rw [List.mem_singleton.1 hp]
          refine ⟨l₀, ls, hsh, hat0, htl, hcl, ?_, hk1⟩
          cases hlk0 : lineKey l₀ with
          | none => exact Or.inr rfl
          | some k0 =>
            have h5 := hkey k0 hlk0
            rw [hks] at h5
            have h6 : kk = k0 := Option.some.inj h5
            exact Or.inl (by rw [← h6])
      · intro p hp
        rw [List.dropLast_concat] at hp
        exact (hout p hp).2
  · rw [if_neg hfl]
    exact ⟨fun p hp => (hout p hp).1,
      fun p hp => (hout p (List.dropLast_sublist _ |>.mem hp)).2⟩

theorem scanBlocksL_good (L : List Str) (hL : ∀ l ∈ L, cleanLine l) :
    (∀ p ∈ scanBlocksL L, GoodPair p.1 p.2) ∧
      ∀ p ∈ (scanBlocksL L).dropLast, braceDelta p.2 = 0 :=
  scanFinish_good (foldl_scanStepL_inv L hL initScan scanInv_init)

theorem mem_dinsert {V : Type} {p : Str × V} {k : Str} {v : V} {m : AList V}
    (h : p ∈ dinsert k v m) : p ∈ m ∨ p = (k, v) := by
  rw [dinsert] at h
  split_ifs at h with hk
  · rcases List.mem_map.1 h with ⟨q, hq, hpq⟩
    by_cases hq1 : q.1 = k
    · rw [if_pos hq1] at hpq
      exact Or.inr hpq.symm
    · rw [if_neg hq1] at hpq
      exact Or.inl (by rw [← hpq]; exact hq)
  · rcases List.mem_append.1 h with h | h
    · exact Or.inl h
    · exact Or.inr (List.mem_singleton.1 h)

theorem keysA_mem_dinsert {V : Type} {k2 k : Str} {v : V} {m : AList V} :
    k2 ∈ keysA (dinsert k v m) ↔ k2 ∈ keysA m ∨ k2 = k := by
  rw [keysA_dinsert]
  split_ifs with hk
  · constructor
    · exact Or.inl
    · intro h
      rcases h with h | h
      · exact h
      · rw [h]; exact hk
  · rw [List.mem_append, List.mem_singleton]

theorem nodup_keysA_dinsert {V : Type} {k : Str} {v : V} {m : AList V}
    (h : (keysA m).Nodup) : (keysA (dinsert k v m)).Nodup := by
  rw [keysA_dinsert]
  split_ifs with hk
  · exact h
  · rw [List.nodup_append]
    exact ⟨h, List.nodup_singleton k, by
      intro x hx hx2
      rw [List.mem_singleton.1 hx2] at hx
      exact hk hx⟩

theorem alookup_of_mem {V : Type} {k : Str} {v : V} :
    ∀ {m : AList V}, (keysA m).Nodup → (k, v) ∈ m → alookup m k = some v := by
  intro m
  induction m with
  | nil => intro _ h; cases h
  | cons q rest ih =>
    intro hnd h
    rcases List.mem_cons.1 h with h | h
    · rw [← h, alookup, if_pos rfl]
    · rw [alookup]
      have hq1 : q.1 ≠ k := by
        intro hcon
        have hk : k ∈ keysA rest := List.mem_map.2 ⟨(k, v), h, rfl⟩
        rw [keysA, List.map_cons, List.nodup_cons] at hnd
        rw [← hcon] at hk
        exact hnd.1 hk
      rw [if_neg hq1]
      exact ih (by rw [keysA, List.map_cons, List.nodup_cons] at hnd; exact hnd.2) h

theorem alookup_mem {V : Type} {k : Str} {v : V} :
    ∀ {m : AList V}, alookup m k = some v → (k, v) ∈ m := by
  intro m
  induction m with
  | nil => intro h; cases h
  | cons q rest ih =>
    intro h
    rw [alookup] at h
    split_ifs at h with hq
    · rw [← hq, ← Option.some.inj h]
      exact List.mem_cons_self q rest
    · exact List.mem_cons_of_mem q (ih h)

theorem alookup_some_of_mem_keys {V : Type} {k : Str} :
    ∀ {m : AList V}, k ∈ keysA m → ∃ v, alookup m k = some v := by
  intro m
  induction m with
  | nil => intro h; cases h
  | cons q rest ih =>
    intro h
    rw [alookup]
    by_cases hq : q.1 = k
    · exact ⟨q.2, by rw [if_pos hq]⟩
    · rcases List.mem_cons.1 h with h | h
      · exact absurd h.symm hq
      · rw [if_neg hq]
        exact ih h

theorem alookup_mem_keys {V : Type} {k : Str} {v : V} {m : AList V}
    (h : alookup m k = some v) : k ∈ keysA m :=
  List.mem_map.2 ⟨(k, v), alookup_mem h, rfl⟩

theorem mem_store_snd (b : Str) :
    ∀ (l : List (Str × RawEntry)) (e : AList BibEntry) (o : AList Str)
      (kv : Str × Str),
      kv ∈ (l.foldl (fun acc x =>
        (dinsert x.1 (mkEntry x.1 x.2) acc.1, dinsert x.1 (pstrip b) acc.2))
        (e, o)).2 →
      kv ∈ o ∨ ∃ x ∈ l, kv = (x.1, pstrip b)
  | [], _, _, _, h => Or.inl h
  | x :: l, e, o, kv, h => by
    rcases mem_store_snd b l _ _ kv h with h2 | ⟨y, hy, hkv⟩
    · rcases mem_dinsert h2 with h3 | h3
      · exact Or.inl h3
      · exact Or.inr ⟨x, by simp, h3⟩
    · exact Or.inr ⟨y, by simp [hy], hkv⟩

theorem keys_store_fst (b : Str) :
    ∀ (l : List (Str × RawEntry)) (e : AList BibEntry) (o : AList Str)
      (k : Str),
      k ∈ keysA (l.foldl (fun acc x =>
        (dinsert x.1 (mkEntry x.1 x.2) acc.1, dinsert x.1 (pstrip b) acc.2))
        (e, o)).1 ↔
      k ∈ keysA e ∨ ∃ x ∈ l, x.1 = k
  | [], e, o, k => by
    constructor
    · exact Or.inl
    · rintro (h | ⟨x, hx, _⟩)
      · exact h
      · cases hx
  | x :: l, e, o, k => by
    rw [List.foldl_cons]
    have ih := keys_store_fst b l (dinsert x.1 (mkEntry x.1 x.2) e)
      (dinsert x.1 (pstrip b) o) k
    rw [ih]
    rw [keysA_mem_dinsert]
    constructor
    · intro h
      rcases h with (h | h) | ⟨y, hy, hk⟩
      · exact Or.inl h
      · exact Or.inr ⟨x, by simp, h.symm⟩
      · exact Or.inr ⟨y, by simp [hy], hk⟩
    · intro h
      rcases h with h | ⟨y, hy, hk⟩
      · exact Or.inl (Or.inl h)
      · rcases List.mem_cons.1 hy with hy | hy
        · exact Or.inl (Or.inr (by rw [← hk, hy]))
        · exact Or.inr ⟨y, hy, hk⟩

theorem nodup_store_snd (b : Str) :
    ∀ (l : List (Str × RawEntry)) (e : AList BibEntry) (o : AList Str),
      (keysA o).Nodup →
      (keysA (l.foldl (fun acc x =>
        (dinsert x.1 (mkEntry x.1 x.2) acc.1, dinsert x.1 (pstrip b) acc.2))
        (e, o)).2).Nodup
  | [], _, _, h => h
  | x :: l, e, o, h =>
    nodup_store_snd b l _ _ (nodup_keysA_dinsert h)

theorem mem_assembleMaps_snd (P : Str → List (Str × RawEntry))
    (bs : List (Str × Str)) :
    ∀ kv ∈ (assembleMaps P bs).2,
      ∃ p ∈ bs, ∃ x ∈ P p.2, kv.1 = x.1 ∧ kv.2 = pstrip p.2 := by
  induction bs using List.reverseRecOn with
  | nil => intro kv h; cases h
  | append_singleton bs p ih =>
    intro kv h
    rw [assembleMaps_snoc, parseAndStore] at h
    rcases mem_store_snd p.2 (P p.2) _ _ kv h with h2 | ⟨x, hx, hkv⟩
    · obtain ⟨q, hq, hrest⟩ := ih kv h2
      exact ⟨q, List.mem_append.2 (Or.inl hq), hrest⟩
    · refine ⟨p, List.mem_append.2 (Or.inr (by simp)), x, hx, ?_, ?_⟩
      · rw [hkv]
      · rw [hkv]

theorem keysA_assembleMaps_fst (P : Str → List (Str × RawEntry))
    (bs : List (Str × Str)) (k : Str) :
    k ∈ keysA (assembleMaps P bs).1 ↔ ∃ p ∈ bs, ∃ x ∈ P p.2, x.1 = k := by
  induction bs using List.reverseRecOn with
  | nil =>
    constructor
    · intro h; cases h
    · rintro ⟨p, hp, -⟩; cases hp
  | append_singleton bs p ih =>
    rw [assembleMaps_snoc, parseAndStore, keys_store_fst, ih]
    constructor
    · intro h
      rcases h with ⟨q, hq, hrest⟩ | ⟨x, hx, hk⟩
      · exact ⟨q, List.mem_append.2 (Or.inl hq), hrest⟩
      · exact ⟨p, List.mem_append.2 (Or.inr (by simp)), x, hx, hk⟩
    · intro ⟨q, hq, hrest⟩
      rcases List.mem_append.1 hq with hq | hq
      · exact Or.inl ⟨q, hq, hrest⟩
      · rw [List.mem_singleton.1 hq] at hrest
        exact Or.inr hrest

theorem nodup_keysA_assembleMaps_snd (P : Str → List (Str × RawEntry))
    (bs : List (Str × Str)) : (keysA (assembleMaps P bs).2).Nodup := by
  induction bs using List.reverseRecOn with
  | nil => exact List.nodup_nil
  | append_singleton bs p ih =>
    rw [assembleMaps_snoc, parseAndStore]
    exact nodup_store_snd p.2 (P p.2) _ _ ih

theorem takeWhile_append_of_all {p : Char → Bool} :
    ∀ {a : Str} (y : Str), (∀ c ∈ a, p c = true) →
      (a ++ y).takeWhile p = a ++ y.takeWhile p := by
  intro a
  induction a with
  | nil => intro y _; rfl
  | cons c r ih =>
    intro y ha
    rw [List.cons_append, List.takeWhile_cons_of_pos (ha c (by simp)),
      ih y (fun d hd => ha d (by simp [hd]))]
    rfl

theorem mem_parseEntryModel {x : Str × RawEntry} {b : Str}
    (h : x ∈ parseEntryModel b) : parseEntryCore (pstrip b) = some x := by
  rw [parseEntryModel] at h
  rcases hc : parseEntryCore (pstrip b) with _ | y
  · rw [hc] at h
    cases h
  · rw [hc] at h
    obtain ⟨k, r⟩ := y
    rw [List.mem_singleton.1 h]

theorem head_line_of_parse {t k : Str} {r : RawEntry}
    (hp : parseEntryCore t = some (k, r)) :
    isAtLine (t.takeWhile fun c => !(c = '\n')) = true ∧
    lineKey (t.takeWhile fun c => !(c = '\n')) = some k := by
  obtain ⟨w, rest, hshape, hw, hwc, hk, hkc⟩ := parseEntryCore_structure hp
  have hall : ∀ c ∈ ('@' :: (w ++ '{' :: (k ++ [','])) : Str),
      (!(c = '\n') : Bool) = true := by
    intro c hc
    rcases List.mem_cons.1 hc with hc | hc
    · rw [hc]; decide
    rcases List.mem_append.1 hc with hc | hc
    · simp [wordChar_ne_nl (hwc c hc)]
    rcases List.mem_cons.1 hc with hc | hc
    · rw [hc]; decide
    rcases List.mem_append.1 hc with hc | hc
    · simp [keyChar_ne_nl (hkc c hc)]
    · rw [List.mem_singleton.1 hc]; decide
  have hre : t = ('@' :: (w ++ '{' :: (k ++ [',']))) ++ rest := by
    rw [hshape]
    simp
  have htw : t.takeWhile (fun c => !(c = '\n')) =
      ('@' :: (w ++ '{' :: (k ++ [',']))) ++
        rest.takeWhile (fun c => !(c = '\n')) := by
    rw [hre, takeWhile_append_of_all _ hall]
  have hform : t.takeWhile (fun c => !(c = '\n')) =
      '@' :: (w ++ '{' :: (k ++ ',' :: rest.takeWhile (fun c => !(c = '\n')))) := by
    rw [htw]
    simp
  constructor
  · rw [hform]
    exact isAtLine_cons_at _
  · rw [hform]
    exact lineKey_concrete _ hw hwc hk hkc [] (by intro c hc; cases hc)

theorem savedG_of_stored {L : List Str} (hL : ∀ l ∈ L, cleanLine l)
    {kv : Str × Str}
    (h : kv ∈ (assembleMaps parseEntryModel (scanBlocksL L)).2) :
    SavedG kv.1 kv.2 := by
  obtain ⟨p, hp, x, hx, hk1, hv⟩ := mem_assembleMaps_snd parseEntryModel _ kv h
  have hcore : parseEntryCore (pstrip p.2) = some x := mem_parseEntryModel hx
  have hgood : GoodPair p.1 p.2 := (scanBlocksL_good L hL).1 p hp
  obtain ⟨xk, xr⟩ := x
  have hkeq : p.1 = xk := GoodPair_key_eq hgood hcore
  obtain ⟨l₀, ls, hsh, hat0, htl, hcl, hlk, hkt⟩ := hgood
  obtain ⟨w, rest, hshape, hw, hwc, hkne, hkc⟩ := parseEntryCore_structure hcore
  have htne : pstrip p.2 ≠ [] := by
    rw [hshape]
    simp
  have hcr : ∀ c ∈ pstrip p.2, ¬c = '\r' := by
    intro c hc hcon
    have hcb : c ∈ p.2 := mem_pstrip hc
    rw [hsh] at hcb
    rcases mem_linesJoin _ hcb with h2 | ⟨lo, hlo, hcl2⟩
    · rw [hcon] at h2
      cases h2
    · have := hcl lo hlo c hcl2
      rw [hcon] at this
      simp [isNl] at this
  have hlast : ∀ hne : pstrip p.2 ≠ [], (pstrip p.2).getLast hne ≠ '\n' := by
    intro hne hcon
    have := pstrip_getLast_not_ws hne
    rw [hcon] at this
    simp [isWs] at this
  have hx0 : '@' ∈ l₀ := by
    rw [isAtLine] at hat0
    have hsome : (pstrip l₀).head? = some '@' := by
      simpa using hat0
    rcases hh : pstrip l₀ with _ | ⟨c, rr⟩
    · rw [hh] at hsome; cases hsome
    · rw [hh] at hsome
      have : c = '@' := Option.some.inj hsome
      exact mem_pstrip (by rw [hh, this]; exact List.mem_cons_self _ _)
  obtain ⟨tl, htl2⟩ := splitLines_head_eq (pstrip p.2) htne hcr
  obtain ⟨hhat, hhlk⟩ := head_line_of_parse hcore
  rw [hk1, hv]
  refine ⟨htne, pstrip_idem _, ?_, ?_, ?_, ?_⟩
  · rw [← hkeq]
    exact hkt
  · rcases linesJoin_splitLines hcr hlast with h2 | h2
    · exact h2
    · exact absurd h2 htne
  · refine ⟨(pstrip p.2).takeWhile (fun c => !(c = '\n')), tl, htl2, hhat, ?_, ?_⟩
    · rw [hhlk]
    · intro l2 hl2
      have hmem : l2 ∈ (splitLines (pstrip p.2)).tail := by
        rw [htl2]
        exact hl2
      have hsh2 : p.2 = linesJoin (l₀ :: ls) := hsh
      rw [hsh2] at hmem
      obtain ⟨lo, hlo, hcase⟩ := pstrip_block_tail_lines hcl hx0 (by decide) l2 hmem
      rcases hcase with hcase | hcase
      · rw [hcase]
        exact htl lo hlo
      · rw [hcase, isAtLine_rtrim]
        exact htl lo hlo
  · refine ⟨xr, ?_⟩
    rw [parseEntryModel, pstrip_idem, hcore]

theorem isNl_false_of_not_ws {c : Char} (h : isWs c = false) : isNl c = false := by
  cases hn : isNl c with
  | false => rfl
  | true => rw [isNl_ws hn] at h; cases h

theorem savedG_no_cr {k t : Str} (h : SavedG k t) : ∀ c ∈ t, ¬c = '\r' := by
  obtain ⟨hne, hps, hkt, hjoin, hhead, hparse⟩ := h
  intro c hc hcon
  have hc2 : c ∈ t ++ ['\n'] := List.mem_append.2 (Or.inl hc)
  rw [← hjoin] at hc2
  rcases mem_linesJoin _ hc2 with h2 | ⟨lo, hlo, hc3⟩
  · rw [hcon] at h2
    cases h2
  · have := splitLines_clean t lo hlo c hc3
    rw [hcon] at this
    simp [isNl] at this

theorem savedG_last {k t : Str} (h : SavedG k t) :
    ∀ hne : t ≠ [], isNl (t.getLast hne) = false := by
  obtain ⟨hne0, hps, -⟩ := h
  intro hne
  have h2 : pstrip t ≠ [] := by rw [hps]; exact hne
  have h3 := pstrip_getLast_not_ws h2
  have h4 : (pstrip t).getLast h2 = t.getLast hne := by
    congr 1 <;> rw [hps]
  rw [h4] at h3
  exact isNl_false_of_not_ws h3

theorem scanStepL_at_noflush (out : List (Str × Str)) (b : Str) (d : ℤ)
    (ky : Option Str) (l : Str) (k : Str) (hat : isAtLine l = true)
    (hlk : lineKey l = some k)
    (hng : ¬(b ≠ [] ∧ d = 0 ∧ keyTruthy ky = true)) :
    scanStepL ⟨out, b, d, ky⟩ l = ⟨out, l ++ ['\n'], braceDelta l, some k⟩ := by
  simp [scanStepL, scanStepCore, hat, hng, hlk]

theorem scanStepL_at_flush (out : List (Str × Str)) (b : Str) (d : ℤ)
    (kp : Str) (l : Str) (k : Str) (hat : isAtLine l = true)
    (hlk : lineKey l = some k) (hb : b ≠ []) (hd : d = 0)
    (hkt : keyTruthy (some kp) = true) :
    scanStepL ⟨out, b, d, some kp⟩ l =
      ⟨out ++ [(kp, b)], l ++ ['\n'], braceDelta l, some k⟩ := by
  simp [scanStepL, scanStepCore, hat, hb, hd, hkt, hlk]

theorem foldl_nonAt :
    ∀ (L : List Str), (∀ l ∈ L, isAtLine l = false) →
      ∀ (out : List (Str × Str)) (b : Str) (d : ℤ) (ky : Option Str), b ≠ [] →
      L.foldl scanStepL ⟨out, b, d, ky⟩ =
        ⟨out, b ++ linesJoin L, d + braceDelta (linesJoin L), ky⟩
  | [], _, out, b, d, ky, _ => by
    simp [linesJoin, braceDelta]
  | l :: L, hL, out, b, d, ky, hb => by
    have hat : isAtLine l = false := hL l (by simp)
    have hstep : scanStepL ⟨out, b, d, ky⟩ l =
        ⟨out, b ++ l ++ ['\n'], d + braceDelta l, ky⟩ := by
      simp [scanStepL, scanStepCore, hat, hb]
    rw [List.foldl_cons, hstep,
      foldl_nonAt L (fun x hx => hL x (by simp [hx])) out _ _ ky (by simp)]
    rw [linesJoin_cons]
    have hblock : b ++ l ++ ['\n'] ++ linesJoin L = b ++ (l ++ '\n' :: linesJoin L) := by
      simp
    have hdelta : d + braceDelta l + braceDelta (linesJoin L) =
        d + braceDelta (l ++ '\n' :: linesJoin L) := by
      rw [show (l ++ '\n' :: linesJoin L : Str) = (l ++ ['\n']) ++ linesJoin L from by simp,
        braceDelta_append, braceDelta_append, braceDelta_nl]
      ring
    rw [hblock, hdelta]

theorem run_group_tail {k t l₀ : Str} {rest : List Str}
    (hsp : splitLines t = l₀ :: rest)
    (hjoin : linesJoin (splitLines t) = t ++ ['\n'])
    (hrest : ∀ l ∈ rest, isAtLine l = false) (out2 : List (Str × Str)) :
    (rest ++ [[]]).foldl scanStepL ⟨out2, l₀ ++ ['\n'], braceDelta l₀, some k⟩ =
      ⟨out2, t ++ ['\n', '\n'], braceDelta t, some k⟩ := by
  have hnonat : ∀ l ∈ rest ++ [[]], isAtLine l = false := by
    intro l hl
    rcases List.mem_append.1 hl with hl | hl
    · exact hrest l hl
    · rw [List.mem_singleton.1 hl]
      decide
  rw [foldl_nonAt (rest ++ [[]]) hnonat out2 _ _ (some k) (by simp)]
  have hjoin2 : linesJoin (l₀ :: (rest ++ [[]])) = t ++ ['\n', '\n'] := by
    rw [show l₀ :: (rest ++ [[]]) = (l₀ :: rest) ++ [[]] from rfl,
      linesJoin_append, ← hsp, hjoin]
    simp [linesJoin]
  have hblock : (l₀ ++ ['\n']) ++ linesJoin (rest ++ [[]]) = t ++ ['\n', '\n'] := by
    rw [← hjoin2, linesJoin_cons]
    simp
  have hdelta : braceDelta l₀ + braceDelta (linesJoin (rest ++ [[]])) =
      braceDelta t := by
    have h1 : braceDelta (linesJoin (l₀ :: (rest ++ [[]]))) = braceDelta t := by
      rw [hjoin2, braceDelta_append]
      have h0 : braceDelta (['\n', '\n'] : Str) = 0 := by decide
      rw [h0]
      ring
    rw [← h1, linesJoin_cons,
      show (l₀ ++ '\n' :: linesJoin (rest ++ [[]]) : Str) =
        (l₀ ++ ['\n']) ++ linesJoin (rest ++ [[]]) from by simp,
      braceDelta_append, braceDelta_append, braceDelta_nl]
    ring
  rw [hblock, hdelta]

theorem run_group {k t : Str} (h : SavedG k t) (out : List (Str × Str))
    (b : Str) (d : ℤ) (ky : Option Str)
    (hng : ¬(b ≠ [] ∧ d = 0 ∧ keyTruthy ky = true)) :
    (splitLines t ++ [[]]).foldl scanStepL ⟨out, b, d, ky⟩ =
      ⟨out, t ++ ['\n', '\n'], braceDelta t, some k⟩ := by
  obtain ⟨hne, hps, hkt, hjoin, ⟨l₀, rest, hsp, hat0, hlk0, hrest⟩, hparse⟩ := h
  rw [hsp, List.cons_append, List.foldl_cons,
    scanStepL_at_noflush out b d ky l₀ k hat0 hlk0 hng]
  exact run_group_tail hsp hjoin hrest out

theorem run_group_flush {k t : Str} (h : SavedG k t) (out : List (Str × Str))
    (pp : Str × Str) (hpp : SavedG pp.1 pp.2) :
    (splitLines t ++ [[]]).foldl scanStepL (gapState out pp) =
      ⟨out ++ (if braceDelta pp.2 = 0 then [(pp.1, pp.2 ++ ['\n', '\n'])] else []),
        t ++ ['\n', '\n'], braceDelta t, some k⟩ := by
  obtain ⟨hne, hps, hkt, hjoin, ⟨l₀, rest, hsp, hat0, hlk0, hrest⟩, hparse⟩ := h
  have hbne : pp.2 ++ ['\n', '\n'] ≠ [] := by simp
  have hkt2 : keyTruthy (some pp.1) = true := hpp.2.2.1
  by_cases hδ : braceDelta pp.2 = 0
  · rw [if_pos hδ, gapState, hsp, List.cons_append, List.foldl_cons,
      scanStepL_at_flush out _ _ pp.1 l₀ k hat0 hlk0 hbne hδ hkt2]
    exact run_group_tail hsp hjoin hrest _
  · rw [if_neg hδ, gapState, hsp, List.cons_append, List.foldl_cons,
      scanStepL_at_noflush out _ _ (some pp.1) l₀ k hat0 hlk0
        (by intro hcon; exact hδ hcon.2.1)]
    simp only [List.append_nil]
    exact run_group_tail hsp hjoin hrest out

theorem rescan_chain :
    ∀ (kts : List (Str × Str)), (∀ q ∈ kts, SavedG q.1 q.2) →
      ∀ (out : List (Str × Str)) (pp : Str × Str), SavedG pp.1 pp.2 →
      scanFinish ((linesOf kts).foldl scanStepL (gapState out pp)) =
        out ++ flushChain pp kts
  | [], _, out, pp, hpp => by
    rw [linesOf, List.foldl_nil, flushChain, scanFinish, gapState]
    have hb : pstrip (pp.2 ++ ['\n', '\n']) ≠ [] := by
      rw [pstrip_append_ws pp.2 (by decide), hpp.2.1]
      exact hpp.1
    rw [if_pos ⟨hb, hpp.2.2.1⟩]
  | q :: r, hq, out, pp, hpp => by
    rw [linesOf, show (splitLines q.2 ++ [[]]) ++ linesOf r = (splitLines q.2 ++ [[]]) ++ linesOf r from rfl,
      List.foldl_append,
      run_group_flush (hq q (by simp)) out pp hpp]
    have hrest := rescan_chain r (fun x hx => hq x (by simp [hx]))
      (out ++ (if braceDelta pp.2 = 0 then [(pp.1, pp.2 ++ ['\n', '\n'])] else []))
      q (hq q (by simp))
    rw [show (⟨out ++ (if braceDelta pp.2 = 0 then [(pp.1, pp.2 ++ ['\n', '\n'])] else []),
        q.2 ++ ['\n', '\n'], braceDelta q.2, some q.1⟩ : ScanSt) =
      gapState (out ++ (if braceDelta pp.2 = 0 then [(pp.1, pp.2 ++ ['\n', '\n'])] else [])) q
      from rfl, hrest, flushChain]
    rw [List.append_assoc]

theorem rescan_top {kts : List (Str × Str)} {pp : Str × Str}
    (hall : ∀ q ∈ pp :: kts, SavedG q.1 q.2) :
    scanBlocksL (linesOf (pp :: kts)) = flushChain pp kts := by
  rw [scanBlocksL, linesOf, List.foldl_append,
    show initScan = (⟨[], [], 0, none⟩ : ScanSt) from rfl,
    run_group (hall pp (by simp)) [] [] 0 none (by intro hcon; exact hcon.1 rfl)]
  have := rescan_chain kts (fun x hx => hall x (by simp [hx])) [] pp
    (hall pp (by simp))
  rw [show (⟨[], pp.2 ++ ['\n', '\n'], braceDelta pp.2, some pp.1⟩ : ScanSt) =
    gapState [] pp from rfl] at *
  rw [this]
  rfl

theorem saveConcat_aux (m : AList Str) :
    ∀ (order : List Str) (acc : Str),
      order.foldl
        (fun acc k =>
          match alookup m k with
          | some s => acc ++ s ++ '\n' :: '\n' :: []
          | none => acc) acc =
      acc ++ joinSave (emitPairs order m)
  | [], acc => by simp [emitPairs, joinSave]
  | k :: order, acc => by
    rw [List.foldl_cons]
    cases hlk : alookup m k with
    | none =>
      rw [saveConcat_aux m order]
      have he : emitPairs (k :: order) m = emitPairs order m := by
        rw [emitPairs, List.filterMap_cons, hlk]
        rfl
      rw [he]
    | some v =>
      rw [saveConcat_aux m order]
      have he : emitPairs (k :: order) m = (k, v) :: emitPairs order m := by
        rw [emitPairs, List.filterMap_cons, hlk]
        rfl
      rw [he, joinSave]
      simp

theorem saveConcat_eq_joinSave (order : List Str) (m : AList Str) :
    saveConcat order m = joinSave (emitPairs order m) := by
  rw [saveConcat, saveConcat_aux m order []]
  rfl

theorem splitLines_nl_single : splitLines ['\n'] = [[]] := by decide

theorem splitLines_joinSave :
    ∀ (kts : List (Str × Str)), (∀ q ∈ kts, SavedG q.1 q.2) → kts ≠ [] →
      splitLines (joinSave kts) = linesOf kts
  | [], _, hne => absurd rfl hne
  | [p], hall, _ => by
    have hp := hall p (by simp)
    rw [joinSave, joinSave,
      splitLines_append_newline ('\n' :: []) hp.1 (savedG_no_cr hp)
        (savedG_last hp hp.1),
      splitLines_nl_single, linesOf, linesOf]
    simp
  | p :: q :: r, hall, _ => by
    have hp := hall p (by simp)
    have ih := splitLines_joinSave (q :: r)
      (fun x hx => hall x (List.mem_cons_of_mem p hx)) (by simp)
    rw [joinSave,
      splitLines_append_newline ('\n' :: joinSave (q :: r)) hp.1
        (savedG_no_cr hp) (savedG_last hp hp.1),
      splitLines_cons_newline, ih]
    rw [show linesOf (p :: q :: r) = (splitLines p.2 ++ [[]]) ++ linesOf (q :: r)
      from rfl]
    simp

theorem parseEntryModel_append_ws (t : Str) {w : Str}
    (hw : ∀ c ∈ w, isWs c = true) :
    parseEntryModel (t ++ w) = parseEntryModel t := by
  rw [parseEntryModel, parseEntryModel, pstrip_append_ws t hw]

theorem mem_flushChain_pair :
    ∀ (pp : Str × Str) (kts : List (Str × Str)) (pair : Str × Str),
      pair ∈ flushChain pp kts →
      ∃ q ∈ pp :: kts, pair = (q.1, q.2 ++ ['\n', '\n'])
  | pp, [], pair, h => by
    rw [flushChain] at h
    exact ⟨pp, by simp, List.mem_singleton.1 h⟩
  | pp, q :: r, pair, h => by
    rw [flushChain] at h
    rcases List.mem_append.1 h with h | h
    · split_ifs at h with hδ
      · exact ⟨pp, by simp, List.mem_singleton.1 h⟩
      · cases h
    · obtain ⟨q2, hq2, hp2⟩ := mem_flushChain_pair q r pair h
      exact ⟨q2, List.mem_cons_of_mem pp hq2, hp2⟩

theorem fst_flushChain_iff :
    ∀ (pp : Str × Str) (kts : List (Str × Str)) (k : Str),
      k ∈ (flushChain pp kts).map Prod.fst ↔
      (∃ q ∈ pp :: kts, braceDelta q.2 = 0 ∧ q.1 = k) ∨
        ((pp :: kts).getLast (by simp)).1 = k
  | pp, [], k => by
    rw [flushChain]
    simp only [List.map_cons, List.map_nil, List.mem_singleton, List.getLast_singleton]
    constructor
    · intro h
      exact Or.inr h.symm
    · rintro (⟨q, hq, -, hk⟩ | h)
      · rw [hq] at hk
        exact hk.symm
      · exact h.symm
  | pp, q :: r, k => by
    rw [flushChain, List.map_append, List.mem_append, fst_flushChain_iff q r k]
    have hlast : ((pp :: q :: r).getLast (by simp)) =
        ((q :: r).getLast (by simp)) := List.getLast_cons (by simp)
    rw [hlast]
    constructor
    · rintro (h | h | h)
      · split_ifs at h with hδ
        · rw [List.map_singleton, List.mem_singleton] at h
          exact Or.inl ⟨pp, by simp, hδ, h.symm⟩
        · cases h
      · obtain ⟨q2, hq2, hδ2, hk2⟩ := h
        exact Or.inl ⟨q2, List.mem_cons_of_mem pp hq2, hδ2, hk2⟩
      · exact Or.inr h
    · rintro (⟨q2, hq2, hδ2, hk2⟩ | h)
      · rcases List.mem_cons.1 hq2 with hq2 | hq2
        · refine Or.inl ?_
          rw [hq2] at hδ2 hk2
          rw [if_pos hδ2, List.map_singleton, List.mem_singleton]
          exact hk2.symm
        · exact Or.inr (Or.inl ⟨q2, hq2, hδ2, hk2⟩)
      · exact Or.inr (Or.inr h)

theorem mem_emitPairs {q : Str × Str} {order : List Str} {m : AList Str} :
    q ∈ emitPairs order m ↔ q.1 ∈ order ∧ alookup m q.1 = some q.2 := by
  rw [emitPairs, List.mem_filterMap]
  constructor
  · rintro ⟨a, ha, hf⟩
    cases hlk : alookup m a with
    | none => rw [hlk] at hf; cases hf
    | some v =>
      rw [hlk] at hf
      have hq : q = (a, v) := (Option.some.inj hf).symm
      rw [hq]
      exact ⟨ha, hlk⟩
  · rintro ⟨ho, hlk⟩
    exact ⟨q.1, ho, by rw [hlk]; rfl⟩

theorem stored_key_in_order {L : List Str} (hL : ∀ l ∈ L, cleanLine l)
    {kv : Str × Str}
    (h : kv ∈ (assembleMaps parseEntryModel (scanBlocksL L)).2) :
    kv.1 ∈ (scanBlocksL L).map Prod.fst := by
  obtain ⟨p, hp, x, hx, hk1, hv⟩ := mem_assembleMaps_snd parseEntryModel _ kv h
  have hcore : parseEntryCore (pstrip p.2) = some x := mem_parseEntryModel hx
  have hgood : GoodPair p.1 p.2 := (scanBlocksL_good L hL).1 p hp
  obtain ⟨xk, xr⟩ := x
  have hkeq : p.1 = xk := GoodPair_key_eq hgood hcore
  rw [hk1]
  exact List.mem_map.2 ⟨p, hp, hkeq⟩

theorem stored_delta_last {L : List Str} (hL : ∀ l ∈ L, cleanLine l)
    {kv : Str × Str}
    (h : kv ∈ (assembleMaps parseEntryModel (scanBlocksL L)).2)
    (hδ : braceDelta kv.2 ≠ 0) :
    ∃ hne : scanBlocksL L ≠ [], kv.1 = ((scanBlocksL L).getLast hne).1 := by
  obtain ⟨p, hp, x, hx, hk1, hv⟩ := mem_assembleMaps_snd parseEntryModel _ kv h
  have hcore : parseEntryCore (pstrip p.2) = some x := mem_parseEntryModel hx
  have hgood : GoodPair p.1 p.2 := (scanBlocksL_good L hL).1 p hp
  obtain ⟨xk, xr⟩ := x
  have hkeq : p.1 = xk := GoodPair_key_eq hgood hcore
  have hne : scanBlocksL L ≠ [] := by
    intro hcon
    rw [hcon] at hp
    cases hp
  refine ⟨hne, ?_⟩
  have hδp : braceDelta p.2 ≠ 0 := by
    rw [hv, braceDelta_pstrip] at hδ
    exact hδ
  have hplast : p = (scanBlocksL L).getLast hne := by
    have hdec := List.dropLast_concat_getLast hne
    rw [← hdec] at hp
    rcases List.mem_append.1 hp with hp2 | hp2
    · exact absurd ((scanBlocksL_good L hL).2 p hp2) hδp
    · exact List.mem_singleton.1 hp2
  rw [hk1, ← hkeq, hplast]

/-- C3: round-trip — for the library produced by a full-file parse,
concatenating the stored verbatim blocks in `entry_order` separated by
a blank line and re-running the parse yields exactly the same set of
record keys as the original library. -/
theorem C3_round_trip (content : Str) (k : Str) :
    k ∈ keysA (loadBib parseEntryModel (saveConcat
        (loadBib parseEntryModel content).order
        (loadBib parseEntryModel content).originals)).entries ↔
    k ∈ keysA (loadBib parseEntryModel content).entries := by
  have hL : ∀ l ∈ splitLines content, cleanLine l := splitLines_clean content
  simp only [loadBib_assemble]
  set bs := scanBlocksL (splitLines content) with hbs
  set m := (assembleMaps parseEntryModel bs).2 with hm
  set order := bs.map Prod.fst with horder
  conv_rhs => rw [assembleMaps_keys]
  have hsavedAll : ∀ kv ∈ m, SavedG kv.1 kv.2 :=
    fun kv hkv => savedG_of_stored hL hkv
  have hnodup : (keysA m).Nodup := nodup_keysA_assembleMaps_snd _ _
  have horderK : ∀ kv ∈ m, kv.1 ∈ order :=
    fun kv hkv => stored_key_in_order hL hkv
  rcases hemit : emitPairs order m with _ | ⟨pp, kts⟩
  · have hmnil : ∀ kv, kv ∉ m := by
      intro kv hkv
      have h1 : kv ∈ emitPairs order m :=
        mem_emitPairs.2 ⟨horderK kv hkv, alookup_of_mem hnodup hkv⟩
      rw [hemit] at h1
      cases h1
    constructor
    · intro hk
      rw [saveConcat_eq_joinSave, hemit] at hk
      have hz : scanBlocksL (splitLines (joinSave ([] : List (Str × Str)))) =
          [] := by decide
      rw [hz] at hk
      simp [assembleMaps, keysA] at hk
    · intro hk
      obtain ⟨kv, hkv, -⟩ := List.mem_map.1 hk
      exact absurd hkv (hmnil kv)
  · have hallS : ∀ q ∈ pp :: kts, SavedG q.1 q.2 := by
      intro q hq
      rw [← hemit] at hq
      obtain ⟨-, hlk⟩ := mem_emitPairs.1 hq
      exact hsavedAll (q.1, q.2) (alookup_mem hlk)
    rw [saveConcat_eq_joinSave, hemit,
      splitLines_joinSave (pp :: kts) hallS (by simp), rescan_top hallS,
      keysA_assembleMaps_fst]
    constructor
    · rintro ⟨pair, hpair, x, hx, hxk⟩
      obtain ⟨q, hq, hpq⟩ := mem_flushChain_pair pp kts pair hpair
      obtain ⟨r, hqr⟩ := (hallS q hq).2.2.2.2.2
      have hpe : parseEntryModel pair.2 = [(q.1, r)] := by
        rw [hpq]
        dsimp only
        rw [parseEntryModel_append_ws q.2 (by decide), hqr]
      rw [hpe] at hx
      have hxq : x = (q.1, r) := List.mem_singleton.1 hx
      have hk2 : q.1 = k := by
        rw [← hxk, hxq]
      have hqe : q ∈ emitPairs order m := by
        rw [hemit]
        exact hq
      obtain ⟨-, hlk⟩ := mem_emitPairs.1 hqe
      rw [← hk2]
      exact alookup_mem_keys hlk
    · intro hk
      obtain ⟨kv, hkv, hkvk⟩ := List.mem_map.1 hk
      have hlk : alookup m kv.1 = some kv.2 := alookup_of_mem hnodup hkv
      have hqe : kv ∈ emitPairs order m :=
        mem_emitPairs.2 ⟨horderK kv hkv, hlk⟩
      rw [hemit] at hqe
      have hfst : k ∈ (flushChain pp kts).map Prod.fst := by
        rw [fst_flushChain_iff]
        by_cases hδ : braceDelta kv.2 = 0
        · exact Or.inl ⟨kv, hqe, hδ, hkvk⟩
        · obtain ⟨hne, hklast⟩ := stored_delta_last hL hkv hδ
          right
          have hone : order ≠ [] := by
            rw [horder]
            simpa using hne
          have holast : order.getLast hone = (bs.getLast hne).1 :=
            List.getLast_map Prod.fst bs hone
          have hlkL : alookup m (order.getLast hone) = some kv.2 := by
            rw [holast, ← hklast]
            exact hlk
          have hord_dec : order.dropLast ++ [order.getLast hone] = order :=
            List.dropLast_concat_getLast hone
          have hsingle : emitPairs [order.getLast hone] m =
              [(order.getLast hone, kv.2)] := by
            rw [emitPairs, List.filterMap_cons, hlkL]
            rfl
          have hsplit : pp :: kts =
              emitPairs order.dropLast m ++ [(order.getLast hone, kv.2)] := by
            rw [← hemit]
            conv_lhs => rw [← hord_dec]
            rw [emitPairs, List.filterMap_append, ← hsingle]
            rfl
          have hglast : ((pp :: kts).getLast (by simp)) =
              (order.getLast hone, kv.2) := by
            apply Option.some.inj
            rw [← List.getLast?_eq_getLast (pp :: kts) (by simp), hsplit,
              List.getLast?_concat]
          rw [hglast]
          show (order.getLast hone) = k
          rw [holast, ← hklast]
          exact hkvk
      obtain ⟨pair, hpair, hpfst⟩ := List.mem_map.1 hfst
      obtain ⟨q, hq, hpq⟩ := mem_flushChain_pair pp kts pair hpair
      obtain ⟨r, hqr⟩ := (hallS q hq).2.2.2.2.2
      refine ⟨pair, hpair, (q.1, r), ?_, ?_⟩
      · rw [hpq]
        dsimp only
        rw [parseEntryModel_append_ws q.2 (by decide), hqr]
        exact List.mem_singleton.2 rfl
      · show q.1 = k
        rw [show q.1 = pair.1 from by rw [hpq], hpfst]

end RefCheck
